import Mathlib

/-!
Verification of the debt simplification engine of `app/api/utils/debt_simplifier.py`.

The two functions under study, `compute_net_balances` and `simplify_debts`, are pure:
they map a list of expense records to a balance mapping and a balance mapping to a
list of settlement transfers.  Python `Decimal` values are modelled as exact rationals
(`ℚ`); `dict`s are modelled as association lists in insertion order, with `dict`
equality being equality of the induced lookup functions.  The `heapq` min-heaps are
modelled by their contents together with a pop-minimum operation, which is extensionally
what `heappush`/`heappop` provide: `heappop` always returns the least element under the
Python tuple order on `(Decimal, str)` pairs.
-/

-- `Rat.add` etc. are `@[irreducible]`; the kernel ignores reducibility, so making them
-- semireducible only lets `decide` evaluate concrete rational arithmetic.
attribute [local semireducible] Rat.add Rat.mul Rat.sub Rat.inv

namespace DebtSimplifier

/-- `tolerance = Decimal('0.000001')` (line 78 of `debt_simplifier.py`). -/
def tolerance : ℚ := 1 / 1000000

/-- A settlement transaction as returned by `simplify_debts` (lines 101-105). -/
structure Transfer where
  from_address : String
  to_address : String
  amount : ℚ
deriving DecidableEq

/-- Python `<` on strings, restricted to their character lists: strict lexicographic
order on code points, a proper prefix being smaller. -/
def charsLt : List Char → List Char → Bool
  | _, [] => false
  | [], _ :: _ => true
  | c :: cs, d :: ds => if c < d then true else if d < c then false else charsLt cs ds

/-- Python `<` on strings. -/
def strLtb (a b : String) : Bool := charsLt a.data b.data

/-- Python `<` on the `(Decimal, str)` tuples stored in the two heaps:
lexicographic in the pair. -/
def keyLt (x y : ℚ × String) : Bool :=
  decide (x.1 < y.1) || (decide (x.1 = y.1) && strLtb x.2 y.2)

/-- `heapq.heappop`: return the least element of the heap (modelled by its content
list) together with the remaining contents.  `none` on an empty heap. -/
def popMin : List (ℚ × String) → Option ((ℚ × String) × List (ℚ × String))
  | [] => none
  | x :: xs =>
    match popMin xs with
    | none => some (x, [])
    | some (m, rest) => if keyLt m x then some (m, x :: rest) else some (x, xs)

/-- Banker's rounding of a rational to an integer: `ROUND_HALF_EVEN`, the rounding
mode of the default Python `Decimal` context used by `quantize`. -/
def roundHalfEven (q : ℚ) : ℤ :=
  if q - ⌊q⌋ < 1 / 2 then ⌊q⌋
  else if q - ⌊q⌋ > 1 / 2 then ⌊q⌋ + 1
  else if ⌊q⌋ % 2 = 0 then ⌊q⌋ else ⌊q⌋ + 1

/-- `transfer.quantize(Decimal('0.000001'))` (line 104): round to six decimal places. -/
def quantize (q : ℚ) : ℚ := (roundHalfEven (q * 1000000) : ℚ) / 1000000

/-- The `while creditors and debtors` loop of `simplify_debts` (lines 92-113).

The loop consumes at least one heap entry per iteration, so fuel
`creditors.length + debtors.length` is enough to run it to completion
(`settleLoop_fuel` below); `simplify_debts` instantiates the fuel that way. -/
def settleLoop : ℕ → List (ℚ × String) → List (ℚ × String) → List Transfer
  | 0, _, _ => []
  | fuel + 1, creditors, debtors =>
    match popMin creditors, popMin debtors with
    | some ((credit_neg, creditor), creditors'), some ((debt_neg, debtor), debtors') =>
      let credit := -credit_neg
      let debt := -debt_neg
      let transfer := min credit debt
      let remaining_credit := credit - transfer
      let remaining_debt := debt - transfer
      let creditors'' :=
        if remaining_credit > tolerance then (-remaining_credit, creditor) :: creditors'
        else creditors'
      let debtors'' :=
        if remaining_debt > tolerance then (-remaining_debt, debtor) :: debtors'
        else debtors'
      ⟨debtor, creditor, quantize transfer⟩ :: settleLoop fuel creditors'' debtors''
    | _, _ => []

/-- Ghost variant of `settleLoop` recording the exact (unquantized) transfer amounts;
used only in proofs, related to `settleLoop` by mapping `quantize` over the amounts. -/
def settleLoopX : ℕ → List (ℚ × String) → List (ℚ × String) → List Transfer
  | 0, _, _ => []
  | fuel + 1, creditors, debtors =>
    match popMin creditors, popMin debtors with
    | some ((credit_neg, creditor), creditors'), some ((debt_neg, debtor), debtors') =>
      let credit := -credit_neg
      let debt := -debt_neg
      let transfer := min credit debt
      let remaining_credit := credit - transfer
      let remaining_debt := debt - transfer
      let creditors'' :=
        if remaining_credit > tolerance then (-remaining_credit, creditor) :: creditors'
        else creditors'
      let debtors'' :=
        if remaining_debt > tolerance then (-remaining_debt, debtor) :: debtors'
        else debtors'
      ⟨debtor, creditor, transfer⟩ :: settleLoopX fuel creditors'' debtors''
    | _, _ => []

/-- The creditor heap built by lines 82-85: entries `(-balance, addr)` for balances
strictly above the tolerance. -/
def creditorsOf (balances : List (String × ℚ)) : List (ℚ × String) :=
  balances.filterMap fun p => if p.2 > tolerance then some (-p.2, p.1) else none

/-- The debtor heap built by lines 86-88: entries `(balance, addr)` for balances
strictly below the negated tolerance. -/
def debtorsOf (balances : List (String × ℚ)) : List (ℚ × String) :=
  balances.filterMap fun p => if p.2 < -tolerance then some (p.2, p.1) else none

/-- `simplify_debts` (lines 63-115): partition the balances into the two heaps and
run the greedy reduction loop. -/
def simplify_debts (balances : List (String × ℚ)) : List Transfer :=
  let creditors := creditorsOf balances
  let debtors := debtorsOf balances
  settleLoop (creditors.length + debtors.length) creditors debtors

/-- Net adjustment a transfer list makes to the balance of address `a` when each
transfer is settled: the payer (`from_address`) moves up by the amount, the payee
(`to_address`) moves down by it. -/
def netAdj (ts : List Transfer) (a : String) : ℚ :=
  (ts.map fun t =>
    (if t.from_address = a then t.amount else 0) -
    (if t.to_address = a then t.amount else 0)).sum

/-- An expense record as consumed by `compute_net_balances` (lines 12-24).
`participants_json` is a Python `dict` in insertion order, so its keys are distinct
in every state the web application can produce; theorems that need that distinctness
assume it explicitly.  The `.get` defaults of the source (`'equal'`, `{}`) are the
caller supplying those values. -/
structure Expense where
  creator_address : String
  amount : ℚ
  split_type : String
  participants_json : List (String × ℚ)
deriving DecidableEq

/-- One `+=`/`-=` on the `defaultdict(Decimal)`: update the entry in place if the
key is present, append `(a, 0 + δ)` otherwise. -/
def dupdate : List (String × ℚ) → String → ℚ → List (String × ℚ)
  | [], a, δ => [(a, δ)]
  | p :: rest, a, δ => if p.1 = a then (p.1, p.2 + δ) :: rest else p :: dupdate rest a δ

/-- The body of the `for expense in expenses` loop of `compute_net_balances`
(lines 27-58) acting on the accumulated balances. -/
def applyExpense (balances : List (String × ℚ)) (e : Expense) : List (String × ℚ) :=
  if e.participants_json = [] then balances
  else if e.split_type = "equal" then
    let count := e.participants_json.length
    if count = 0 then balances
    else
      let share := e.amount / (count : ℚ)
      e.participants_json.foldl (fun b p => dupdate b p.1 (-share))
        (dupdate balances e.creator_address e.amount)
  else if e.split_type = "exact" then
    e.participants_json.foldl (fun b p => dupdate b p.1 (-p.2))
      (dupdate balances e.creator_address e.amount)
  else if e.split_type = "percentage" then
    e.participants_json.foldl (fun b p => dupdate b p.1 (-(e.amount * p.2 / 100)))
      (dupdate balances e.creator_address e.amount)
  else balances

/-- `compute_net_balances` (lines 12-60) on well-formed numeric input. -/
def compute_net_balances (expenses : List Expense) : List (String × ℚ) :=
  expenses.foldl applyExpense []

/-- Dictionary lookup on the balance mapping (Python `dict` access). -/
def lookupBal : List (String × ℚ) → String → Option ℚ
  | [], _ => none
  | p :: rest, a => if p.1 = a then some p.2 else lookupBal rest a

/-- Whether the `elif` chain of lines 37-58 recognises the split type. -/
def splitKnown (e : Expense) : Bool :=
  e.split_type == "equal" || e.split_type == "exact" || e.split_type == "percentage"

/-- The amount the branch taken for `e` debits for the participant entry `p`
(`share`, `Decimal(str(owed))`, or `amount * pct / 100`). -/
def debitEntry (e : Expense) (p : String × ℚ) : ℚ :=
  if e.split_type = "equal" then e.amount / (e.participants_json.length : ℚ)
  else if e.split_type = "exact" then p.2
  else if e.split_type = "percentage" then e.amount * p.2 / 100
  else 0

/-- Whether processing `e` writes the balance entry of address `a`. -/
def touches (e : Expense) (a : String) : Bool :=
  decide (e.participants_json ≠ []) && splitKnown e &&
    (a == e.creator_address || e.participants_json.any fun p => p.1 == a)

/-- The signed amount expense `e` contributes to the balance of address `a`:
the full amount if `a` is the payer, minus every debit of an entry keyed by `a`. -/
def contrib (e : Expense) (a : String) : ℚ :=
  if e.participants_json = [] then 0
  else if splitKnown e then
    (if a = e.creator_address then e.amount else 0) -
      ((e.participants_json.filter fun p => p.1 == a).map (debitEntry e)).sum
  else 0

/-- A raw decimal-convertible value: either a well-formed decimal literal or one
that `Decimal(str(x))` rejects with `decimal.InvalidOperation` (the spec's
`ComputationError`). -/
inductive RawVal where
  | num (q : ℚ)
  | malformed
deriving DecidableEq

/-- `Decimal(str(x))`: succeed exactly on well-formed values. -/
def parseDecimal : RawVal → Except Unit ℚ
  | .num q => .ok q
  | .malformed => .error ()

/-- An expense record before decimal coercion of its numeric fields. -/
structure ExpenseRaw where
  creator_address : String
  amount : RawVal
  split_type : String
  participants_json : List (String × RawVal)
deriving DecidableEq

/-- The loop body of `compute_net_balances` on raw input: `Decimal` coercions may
fail, and a failure aborts the computation (lines 27-58; the amount is coerced at
line 29, before the empty-participants check at line 33). -/
def applyExpenseRaw (balances : List (String × ℚ)) (e : ExpenseRaw) :
    Except Unit (List (String × ℚ)) := do
  let amount ← parseDecimal e.amount
  if e.participants_json = [] then return balances
  else if e.split_type = "equal" then
    let count := e.participants_json.length
    if count = 0 then return balances
    else
      let share := amount / (count : ℚ)
      return e.participants_json.foldl (fun b p => dupdate b p.1 (-share))
        (dupdate balances e.creator_address amount)
  else if e.split_type = "exact" then
    e.participants_json.foldlM (fun b p => do
      let owed ← parseDecimal p.2
      return dupdate b p.1 (-owed))
      (dupdate balances e.creator_address amount)
  else if e.split_type = "percentage" then
    e.participants_json.foldlM (fun b p => do
      let pct ← parseDecimal p.2
      return dupdate b p.1 (-(amount * pct / 100)))
      (dupdate balances e.creator_address amount)
  else return balances

/-- `compute_net_balances` on raw input. -/
def compute_net_balances_raw (expenses : List ExpenseRaw) :
    Except Unit (List (String × ℚ)) :=
  expenses.foldlM applyExpenseRaw []

/-- An expense whose numeric fields the aggregator actually coerces to decimals,
all successfully: the amount always, the participant values only under the
`'exact'` and `'percentage'` branches (the `'equal'` branch ignores them). -/
def rawOk (e : ExpenseRaw) : Prop :=
  e.amount ≠ RawVal.malformed ∧
    (e.participants_json ≠ [] →
      (e.split_type = "exact" ∨ e.split_type = "percentage") →
      ∀ p ∈ e.participants_json, p.2 ≠ RawVal.malformed)

/-! ### Order lemmas for the heap key comparison -/

lemma charsLt_nil (a : List Char) : charsLt a [] = false := by cases a <;> rfl

lemma charsLt_irrefl : ∀ l, charsLt l l = false
  | [] => rfl
  | c :: cs => by simp [charsLt, charsLt_irrefl cs]

lemma charsLt_asymm : ∀ a b, charsLt a b = true → charsLt b a = false
  | a, [], h => by rw [charsLt_nil] at h; cases h
  | [], _ :: _, _ => charsLt_nil _
  | c :: cs, d :: ds, h => by
    simp only [charsLt] at h ⊢
    rcases lt_trichotomy c d with h1 | h1 | h1
    · rw [if_neg (lt_asymm h1), if_pos h1]
    · subst h1
      simp only [lt_irrefl, if_false] at h ⊢
      exact charsLt_asymm cs ds h
    · rw [if_neg (lt_asymm h1), if_pos h1] at h; cases h

lemma charsLt_nltTrans : ∀ a b c, charsLt a b = false → charsLt b c = false →
    charsLt a c = false
  | a, _, [], _, _ => charsLt_nil a
  | [], [], _ :: _, _, h2 => by simp [charsLt] at h2
  | [], _ :: _, _ :: _, h1, _ => by simp [charsLt] at h1
  | _ :: _, [], _ :: _, _, h2 => by simp [charsLt] at h2
  | x :: xs, y :: ys, z :: zs, h1, h2 => by
    simp only [charsLt] at h1 h2 ⊢
    have hyx : ¬ x < y := by
      intro h; rw [if_pos h] at h1; cases h1
    have hzy : ¬ y < z := by
      intro h; rw [if_pos h] at h2; cases h2
    have hxz : ¬ x < z := fun h => absurd (lt_of_lt_of_le h (not_lt.1 hzy)) hyx
    by_cases hzx : z < x
    · rw [if_neg hxz, if_pos hzx]
    · have hx_z : x = z := le_antisymm (not_lt.1 hzx) (le_trans (not_lt.1 hzy) (not_lt.1 hyx))
      have hy_x : y = x := le_antisymm (not_lt.1 hyx) (hx_z ▸ not_lt.1 hzy)
      subst hx_z
      subst hy_x
      simp only [lt_irrefl, if_false] at h1 h2 ⊢
      exact charsLt_nltTrans xs ys zs h1 h2

lemma charsLt_antisymm : ∀ a b, charsLt a b = false → charsLt b a = false → a = b
  | [], [], _, _ => rfl
  | [], _ :: _, h1, _ => by simp [charsLt] at h1
  | _ :: _, [], _, h2 => by simp [charsLt] at h2
  | c :: cs, d :: ds, h1, h2 => by
    simp only [charsLt] at h1 h2
    have hcd : ¬ c < d := by
      intro h; rw [if_pos h] at h1; cases h1
    have hdc : ¬ d < c := by
      intro h; rw [if_pos h] at h2; cases h2
    have hc : c = d := le_antisymm (not_lt.1 hdc) (not_lt.1 hcd)
    rw [if_neg hcd, if_neg hdc] at h1
    rw [if_neg hdc, if_neg hcd] at h2
    rw [hc, charsLt_antisymm cs ds h1 h2]

lemma strLtb_irrefl (a : String) : strLtb a a = false := by
  simp [strLtb, charsLt_irrefl]

lemma strLtb_asymm {a b : String} (h : strLtb a b = true) : strLtb b a = false :=
  charsLt_asymm _ _ h

lemma strLtb_nltTrans {a b c : String} (h1 : strLtb a b = false)
    (h2 : strLtb b c = false) : strLtb a c = false :=
  charsLt_nltTrans _ _ _ h1 h2

lemma strLtb_antisymm {a b : String} (h1 : strLtb a b = false)
    (h2 : strLtb b a = false) : a = b := by
  cases a; cases b
  exact congrArg String.mk (charsLt_antisymm _ _ h1 h2)

lemma keyLt_irrefl (x : ℚ × String) : keyLt x x = false := by
  simp [keyLt, strLtb_irrefl]

lemma keyLt_asymm {x y : ℚ × String} (h : keyLt x y = true) : keyLt y x = false := by
  simp only [keyLt, Bool.or_eq_true, Bool.and_eq_true, decide_eq_true_eq] at h
  simp only [keyLt, Bool.or_eq_false_iff, Bool.and_eq_false_iff,
    decide_eq_false_iff_not]
  rcases h with h | ⟨he, hs⟩
  · exact ⟨not_lt.2 (le_of_lt h), Or.inl (ne_of_gt h)⟩
  · refine ⟨?_, Or.inr (strLtb_asymm hs)⟩
    rw [← he]
    exact lt_irrefl _

lemma keyLt_nltTrans {x y z : ℚ × String} (h1 : keyLt x y = false)
    (h2 : keyLt y z = false) : keyLt x z = false := by
  simp only [keyLt, Bool.or_eq_false_iff, Bool.and_eq_false_iff,
    decide_eq_false_iff_not] at h1 h2 ⊢
  obtain ⟨hlt1, heq1⟩ := h1
  obtain ⟨hlt2, heq2⟩ := h2
  have hle1 : y.1 ≤ x.1 := not_lt.1 hlt1
  have hle2 : z.1 ≤ y.1 := not_lt.1 hlt2
  refine ⟨not_lt.2 (le_trans hle2 hle1), ?_⟩
  by_cases hq : x.1 = z.1
  · right
    have hxy : x.1 = y.1 := le_antisymm (hq ▸ hle2) hle1
    have hyz : y.1 = z.1 := hxy ▸ hq
    rcases heq1 with h | h
    · exact absurd hxy h
    · rcases heq2 with h' | h'
      · exact absurd hyz h'
      · exact strLtb_nltTrans h h'
  · exact Or.inl hq

lemma keyLt_antisymm {x y : ℚ × String} (h1 : keyLt x y = false)
    (h2 : keyLt y x = false) : x = y := by
  simp only [keyLt, Bool.or_eq_false_iff, Bool.and_eq_false_iff,
    decide_eq_false_iff_not] at h1 h2
  obtain ⟨hlt1, heq1⟩ := h1
  obtain ⟨hlt2, heq2⟩ := h2
  have hq : x.1 = y.1 := le_antisymm (not_lt.1 hlt2) (not_lt.1 hlt1)
  have hs : x.2 = y.2 := by
    rcases heq1 with h | h
    · exact absurd hq h
    · rcases heq2 with h' | h'
      · exact absurd hq.symm h'
      · exact strLtb_antisymm h h'
  exact Prod.ext hq hs

/-- If `keyLt x y` fails and the pairs differ, then `keyLt y x` holds (totality). -/
lemma keyLt_total_of_ne {x y : ℚ × String} (hne : x ≠ y) (h : keyLt x y = false) :
    keyLt y x = true := by
  cases hyx : keyLt y x
  · exact absurd (keyLt_antisymm h hyx).symm (Ne.symm hne)
  · rfl

/-! ### Lemmas about `popMin` -/

lemma popMin_eq_none_iff {l : List (ℚ × String)} : popMin l = none ↔ l = [] := by
  cases l with
  | nil => simp [popMin]
  | cons x xs =>
    simp only [popMin]
    cases popMin xs with
    | none => simp
    | some p =>
      obtain ⟨m, rest⟩ := p
      by_cases h : keyLt m x = true <;> simp [h]

lemma popMin_perm : ∀ {l m rest}, popMin l = some (m, rest) → (m :: rest).Perm l
  | [], _, _, h => by simp [popMin] at h
  | x :: xs, m, rest, h => by
    simp only [popMin] at h
    split at h
    next hxs =>
      simp only [Option.some.injEq, Prod.mk.injEq] at h
      obtain ⟨rfl, rfl⟩ := h
      have hnil := popMin_eq_none_iff.1 hxs
      subst hnil
      exact List.Perm.refl _
    next m' rest' hxs =>
      split at h
      next hk =>
        simp only [Option.some.injEq, Prod.mk.injEq] at h
        obtain ⟨rfl, rfl⟩ := h
        exact (List.Perm.swap x m' rest').trans ((popMin_perm hxs).cons x)
      next hk =>
        simp only [Option.some.injEq, Prod.mk.injEq] at h
        obtain ⟨rfl, rfl⟩ := h
        exact List.Perm.refl _

lemma popMin_min : ∀ {l m rest}, popMin l = some (m, rest) → ∀ y ∈ l, keyLt y m = false
  | [], _, _, h => by simp [popMin] at h
  | x :: xs, m, rest, h => by
    simp only [popMin] at h
    split at h
    next hxs =>
      simp only [Option.some.injEq, Prod.mk.injEq] at h
      obtain ⟨rfl, rfl⟩ := h
      have hnil := popMin_eq_none_iff.1 hxs
      subst hnil
      intro y hy
      simp only [List.mem_singleton] at hy
      subst hy
      exact keyLt_irrefl _
    next m' rest' hxs =>
      split at h
      next hk =>
        simp only [Option.some.injEq, Prod.mk.injEq] at h
        obtain ⟨rfl, rfl⟩ := h
        intro y hy
        rcases List.mem_cons.1 hy with rfl | hy'
        · exact keyLt_asymm hk
        · exact popMin_min hxs y hy'
      next hk =>
        simp only [Option.some.injEq, Prod.mk.injEq] at h
        obtain ⟨rfl, rfl⟩ := h
        intro y hy
        rcases List.mem_cons.1 hy with rfl | hy'
        · exact keyLt_irrefl _
        · exact keyLt_nltTrans (popMin_min hxs y hy') (Bool.eq_false_iff.2 hk)

lemma popMin_mem {l m rest} (h : popMin l = some (m, rest)) : m ∈ l :=
  (popMin_perm h).mem_iff.1 (List.mem_cons_self _ _)

lemma popMin_length {l m rest} (h : popMin l = some (m, rest)) :
    rest.length + 1 = l.length := by
  simpa using (popMin_perm h).length_eq

lemma tolerance_pos : 0 < tolerance := by norm_num [tolerance]

/-! ### Basic lemmas about the reduction loop -/

lemma settleLoop_nil_left : ∀ fuel ds, settleLoop fuel [] ds = []
  | 0, _ => rfl
  | _ + 1, _ => rfl

lemma settleLoop_nil_right : ∀ fuel cs, settleLoop fuel cs [] = []
  | 0, _ => rfl
  | _ + 1, cs => by
    simp only [settleLoop]
    rcases hc : popMin cs with _ | ⟨⟨cneg, cA⟩, cs'⟩ <;> simp [hc, popMin]

/-- `settleLoop` only quantizes the recorded amount; `settleLoopX` records it exactly. -/
lemma settleLoop_eq_map : ∀ fuel cs ds,
    settleLoop fuel cs ds =
      (settleLoopX fuel cs ds).map fun t => ⟨t.from_address, t.to_address, quantize t.amount⟩
  | 0, _, _ => rfl
  | fuel + 1, cs, ds => by
    rcases hc : popMin cs with _ | ⟨⟨cneg, cA⟩, cs'⟩ <;>
      rcases hd : popMin ds with _ | ⟨⟨dneg, dA⟩, ds'⟩ <;>
        simp only [settleLoop, settleLoopX, hc, hd, List.map_cons, List.map_nil]
    exact congrArg _ (settleLoop_eq_map fuel _ _)

/-- One loop iteration pushes back at most one of the two popped entries: the side
achieving the minimum is fully zeroed, and a zero remainder is never above the
(positive) tolerance. -/
lemma step_sizes (cneg dneg : ℚ) (cA dA : String) (cs' ds' : List (ℚ × String)) :
    (if -cneg - min (-cneg) (-dneg) > tolerance
      then (-(-cneg - min (-cneg) (-dneg)), cA) :: cs' else cs').length +
    (if -dneg - min (-cneg) (-dneg) > tolerance
      then (-(-dneg - min (-cneg) (-dneg)), dA) :: ds' else ds').length ≤
    cs'.length + ds'.length + 1 := by
  rcases le_total (-cneg) (-dneg) with h | h
  · have h0 : ¬ (-cneg - min (-cneg) (-dneg) > tolerance) := by
      rw [min_eq_left h, sub_self]
      exact not_lt.2 tolerance_pos.le
    rw [if_neg h0]
    split
    · simp only [List.length_cons]
      omega
    · omega
  · have h0 : ¬ (-dneg - min (-cneg) (-dneg) > tolerance) := by
      rw [min_eq_right h, sub_self]
      exact not_lt.2 tolerance_pos.le
    rw [if_neg h0]
    split
    · simp only [List.length_cons]
      omega
    · omega

/-- The loop's result does not depend on the fuel once the fuel covers the total
heap size: the `while` loop of the source terminates within that many iterations. -/
lemma settleLoop_fuel : ∀ f₁ f₂ cs ds, cs.length + ds.length ≤ f₁ →
    cs.length + ds.length ≤ f₂ → settleLoop f₁ cs ds = settleLoop f₂ cs ds := by
  intro f₁
  induction f₁ with
  | zero =>
    intro f₂ cs ds h₁ _
    have hcs : cs = [] := List.length_eq_zero.1 (by omega)
    have hds : ds = [] := List.length_eq_zero.1 (by omega)
    subst hcs; subst hds
    rw [settleLoop_nil_left, settleLoop_nil_left]
  | succ f IH =>
    intro f₂ cs ds h₁ h₂
    cases f₂ with
    | zero =>
      have hcs : cs = [] := List.length_eq_zero.1 (by omega)
      have hds : ds = [] := List.length_eq_zero.1 (by omega)
      subst hcs; subst hds
      rw [settleLoop_nil_left, settleLoop_nil_left]
    | succ g =>
      rcases hc : popMin cs with _ | ⟨⟨cneg, cA⟩, cs'⟩
      · have hcs : cs = [] := popMin_eq_none_iff.1 hc
        subst hcs
        rw [settleLoop_nil_left, settleLoop_nil_left]
      rcases hd : popMin ds with _ | ⟨⟨dneg, dA⟩, ds'⟩
      · have hds : ds = [] := popMin_eq_none_iff.1 hd
        subst hds
        rw [settleLoop_nil_right, settleLoop_nil_right]
      simp only [settleLoop, hc, hd]
      congr 1
      have h3 := step_sizes cneg dneg cA dA cs' ds'
      have hc' := popMin_length hc
      have hd' := popMin_length hd
      exact IH g _ _ (by omega) (by omega)

/-- The loop emits at most `creditors + debtors - 1` transfers. -/
lemma settleLoop_length : ∀ fuel cs ds,
    (settleLoop fuel cs ds).length ≤ cs.length + ds.length - 1 := by
  intro fuel
  induction fuel with
  | zero => intro cs ds; simp [settleLoop]
  | succ f IH =>
    intro cs ds
    rcases hc : popMin cs with _ | ⟨⟨cneg, cA⟩, cs'⟩
    · have hcs : cs = [] := popMin_eq_none_iff.1 hc
      subst hcs
      simp [settleLoop_nil_left]
    rcases hd : popMin ds with _ | ⟨⟨dneg, dA⟩, ds'⟩
    · have hds : ds = [] := popMin_eq_none_iff.1 hd
      subst hds
      simp [settleLoop_nil_right]
    simp only [settleLoop, hc, hd, List.length_cons]
    refine le_trans (Nat.succ_le_succ (IH _ _)) ?_
    have h3 := step_sizes cneg dneg cA dA cs' ds'
    have hc' := popMin_length hc
    have hd' := popMin_length hd
    omega

/-- Popping from permuted heaps yields the same minimum and permuted remainders. -/
lemma popMin_congr {l₁ l₂ : List (ℚ × String)} {m rest₁} (hp : l₁.Perm l₂)
    (h₁ : popMin l₁ = some (m, rest₁)) :
    ∃ rest₂, popMin l₂ = some (m, rest₂) ∧ rest₁.Perm rest₂ := by
  rcases h₂ : popMin l₂ with _ | ⟨m₂, rest₂⟩
  · have hl₂ : l₂ = [] := popMin_eq_none_iff.1 h₂
    subst hl₂
    have hl₁ : l₁ = [] := List.Perm.eq_nil hp
    subst hl₁
    simp [popMin] at h₁
  · have hm : m₂ = m := by
      have hm₂1 : m₂ ∈ l₁ := hp.mem_iff.2 (popMin_mem h₂)
      have hm12 : m ∈ l₂ := hp.mem_iff.1 (popMin_mem h₁)
      exact (keyLt_antisymm (popMin_min h₂ m hm12) (popMin_min h₁ m₂ hm₂1)).symm
    subst hm
    refine ⟨rest₂, rfl, ?_⟩
    exact ((popMin_perm h₁).trans (hp.trans (popMin_perm h₂).symm)).cons_inv

/-- The loop result depends only on the heap contents as multisets. -/
lemma settleLoop_perm : ∀ fuel (cs₁ ds₁ cs₂ ds₂ : List (ℚ × String)), cs₁.Perm cs₂ →
    ds₁.Perm ds₂ → settleLoop fuel cs₁ ds₁ = settleLoop fuel cs₂ ds₂ := by
  intro fuel
  induction fuel with
  | zero => intro _ _ _ _ _ _; rfl
  | succ f IH =>
    intro cs₁ ds₁ cs₂ ds₂ hpc hpd
    rcases hc : popMin cs₁ with _ | ⟨⟨cneg, cA⟩, cs₁'⟩
    · have h1 : cs₁ = [] := popMin_eq_none_iff.1 hc
      subst h1
      have h2 : cs₂ = [] := List.Perm.eq_nil hpc.symm
      subst h2
      rw [settleLoop_nil_left, settleLoop_nil_left]
    rcases hd : popMin ds₁ with _ | ⟨⟨dneg, dA⟩, ds₁'⟩
    · have h1 : ds₁ = [] := popMin_eq_none_iff.1 hd
      subst h1
      have h2 : ds₂ = [] := List.Perm.eq_nil hpd.symm
      subst h2
      rw [settleLoop_nil_right, settleLoop_nil_right]
    obtain ⟨cs₂', hc₂, hpc'⟩ := popMin_congr hpc hc
    obtain ⟨ds₂', hd₂, hpd'⟩ := popMin_congr hpd hd
    simp only [settleLoop, hc, hd, hc₂, hd₂]
    congr 1
    apply IH
    · split
      · exact hpc'.cons _
      · exact hpc'
    · split
      · exact hpd'.cons _
      · exact hpd'

lemma settleLoopX_nil_left : ∀ fuel ds, settleLoopX fuel [] ds = []
  | 0, _ => rfl
  | _ + 1, _ => rfl

lemma settleLoopX_nil_right : ∀ fuel cs, settleLoopX fuel cs [] = []
  | 0, _ => rfl
  | _ + 1, cs => by
    simp only [settleLoopX]
    rcases hc : popMin cs with _ | ⟨⟨cneg, cA⟩, cs'⟩ <;> simp [hc, popMin]

lemma netAdj_nil (a : String) : netAdj [] a = 0 := rfl

lemma netAdj_cons (t : Transfer) (ts : List Transfer) (a : String) :
    netAdj (t :: ts) a =
      ((if t.from_address = a then t.amount else 0) -
        (if t.to_address = a then t.amount else 0)) + netAdj ts a := by
  simp [netAdj]

lemma netAdj_untouched : ∀ {ts : List Transfer} {a : String},
    (∀ t ∈ ts, t.from_address ≠ a ∧ t.to_address ≠ a) → netAdj ts a = 0
  | [], _, _ => rfl
  | t :: ts, a, h => by
    obtain ⟨h1, h2⟩ := h t (List.mem_cons_self _ _)
    rw [netAdj_cons, if_neg h1, if_neg h2,
      netAdj_untouched fun u hu => h u (List.mem_cons_of_mem _ hu)]
    ring

lemma snd_mem_of_popMin {l : List (ℚ × String)} {m rest} (h : popMin l = some (m, rest)) :
    m.2 ∈ l.map Prod.snd :=
  List.mem_map_of_mem _ (popMin_mem h)

lemma map_snd_subset_of_popMin {l : List (ℚ × String)} {m rest}
    (h : popMin l = some (m, rest)) :
    ∀ a ∈ rest.map Prod.snd, a ∈ l.map Prod.snd := by
  intro a ha
  exact ((popMin_perm h).map Prod.snd).mem_iff.1 (List.mem_cons_of_mem _ ha)

/-- Every emitted transfer is paid by a debtor-heap address to a creditor-heap
address. -/
lemma settleLoopX_mem : ∀ fuel cs ds, ∀ t ∈ settleLoopX fuel cs ds,
    t.to_address ∈ cs.map Prod.snd ∧ t.from_address ∈ ds.map Prod.snd := by
  intro fuel
  induction fuel with
  | zero => intro cs ds t ht; simp [settleLoopX] at ht
  | succ f IH =>
    intro cs ds t ht
    rcases hc : popMin cs with _ | ⟨⟨cneg, cA⟩, cs'⟩
    · have hcs : cs = [] := popMin_eq_none_iff.1 hc
      subst hcs
      rw [settleLoopX_nil_left] at ht
      exact absurd ht (List.not_mem_nil t)
    rcases hd : popMin ds with _ | ⟨⟨dneg, dA⟩, ds'⟩
    · have hds : ds = [] := popMin_eq_none_iff.1 hd
      subst hds
      rw [settleLoopX_nil_right] at ht
      exact absurd ht (List.not_mem_nil t)
    simp only [settleLoopX, hc, hd] at ht
    rcases List.mem_cons.1 ht with rfl | ht'
    · exact ⟨snd_mem_of_popMin hc, snd_mem_of_popMin hd⟩
    · obtain ⟨h1, h2⟩ := IH _ _ t ht'
      constructor
      · split at h1
        · rw [List.map_cons] at h1
          rcases List.mem_cons.1 h1 with heq | hmem
          · rw [heq]
            show cA ∈ cs.map Prod.snd
            exact snd_mem_of_popMin hc
          · exact map_snd_subset_of_popMin hc _ hmem
        · exact map_snd_subset_of_popMin hc _ h1
      · split at h2
        · rw [List.map_cons] at h2
          rcases List.mem_cons.1 h2 with heq | hmem
          · rw [heq]
            show dA ∈ ds.map Prod.snd
            exact snd_mem_of_popMin hd
          · exact map_snd_subset_of_popMin hd _ hmem
        · exact map_snd_subset_of_popMin hd _ h2

/-- Addresses outside both heaps are untouched by the loop's transfers. -/
lemma settleLoopX_netAdj_zero {fuel cs ds a} (ha1 : a ∉ cs.map Prod.snd)
    (ha2 : a ∉ ds.map Prod.snd) : netAdj (settleLoopX fuel cs ds) a = 0 := by
  refine netAdj_untouched fun t ht => ?_
  obtain ⟨h1, h2⟩ := settleLoopX_mem fuel cs ds t ht
  exact ⟨fun he => ha2 (he ▸ h2), fun he => ha1 (he ▸ h1)⟩

/-- Main invariant of the greedy loop (on exact amounts).  Starting from heaps with
distinct addresses, negative stored keys, and enough fuel: settling the emitted
transfers never overshoots a creditor below `0` nor a debtor above `0`, and at loop
end at least one side is fully settled to within the tolerance. -/
lemma settleLoopX_invariant : ∀ fuel (cs ds : List (ℚ × String)),
    cs.length + ds.length ≤ fuel →
    (cs.map Prod.snd ++ ds.map Prod.snd).Nodup →
    (∀ p ∈ cs, p.1 < 0) → (∀ p ∈ ds, p.1 < 0) →
    (∀ p ∈ cs, 0 ≤ -p.1 + netAdj (settleLoopX fuel cs ds) p.2) ∧
    (∀ p ∈ ds, p.1 + netAdj (settleLoopX fuel cs ds) p.2 ≤ 0) ∧
    ((∀ p ∈ cs, -p.1 + netAdj (settleLoopX fuel cs ds) p.2 ≤ tolerance) ∨
     (∀ p ∈ ds, -tolerance ≤ p.1 + netAdj (settleLoopX fuel cs ds) p.2)) := by
  intro fuel
  induction fuel with
  | zero =>
    intro cs ds hfuel _ _ _
    have hcs : cs = [] := List.length_eq_zero.1 (by omega)
    have hds : ds = [] := List.length_eq_zero.1 (by omega)
    subst hcs; subst hds
    exact ⟨by simp, by simp, Or.inl (by simp)⟩
  | succ f IH =>
    intro cs ds hfuel hnodup hcnegs hdnegs
    rcases hc : popMin cs with _ | ⟨⟨cneg, cA⟩, cs'⟩
    · have hcs : cs = [] := popMin_eq_none_iff.1 hc
      subst hcs
      rw [settleLoopX_nil_left]
      refine ⟨by simp, ?_, Or.inl (by simp)⟩
      intro p hp
      rw [netAdj_nil]
      have := hdnegs p hp
      linarith
    rcases hd : popMin ds with _ | ⟨⟨dneg, dA⟩, ds'⟩
    · have hds : ds = [] := popMin_eq_none_iff.1 hd
      subst hds
      rw [settleLoopX_nil_right]
      refine ⟨?_, by simp, Or.inr (by simp)⟩
      intro p hp
      rw [netAdj_nil]
      have := hcnegs p hp
      linarith
    have hβpos : 0 < -cneg := by
      have := hcnegs _ (popMin_mem hc)
      exact neg_pos.2 this
    have hδpos : 0 < -dneg := by
      have := hdnegs _ (popMin_mem hd)
      exact neg_pos.2 this
    have hpc : (cA :: cs'.map Prod.snd).Perm (cs.map Prod.snd) := by
      have := (popMin_perm hc).map Prod.snd
      simpa using this
    have hpd : (dA :: ds'.map Prod.snd).Perm (ds.map Prod.snd) := by
      have := (popMin_perm hd).map Prod.snd
      simpa using this
    have hN : ((cA :: cs'.map Prod.snd) ++ (dA :: ds'.map Prod.snd)).Nodup :=
      ((hpc.append hpd).nodup_iff).2 hnodup
    obtain ⟨hN1, hN2, hdisj⟩ := List.nodup_append.1 hN
    have hcA_cs' : cA ∉ cs'.map Prod.snd := (List.nodup_cons.1 hN1).1
    have hdA_ds' : dA ∉ ds'.map Prod.snd := (List.nodup_cons.1 hN2).1
    have hcAdA : cA ≠ dA :=
      fun h => hdisj (List.mem_cons_self _ _) (by rw [h]; exact List.mem_cons_self _ _)
    have hcA_ds' : cA ∉ ds'.map Prod.snd :=
      fun h => hdisj (List.mem_cons_self _ _) (List.mem_cons_of_mem _ h)
    have hdA_cs' : dA ∉ cs'.map Prod.snd :=
      fun h => hdisj (List.mem_cons_of_mem _ h) (List.mem_cons_self _ _)
    have hcnegs' : ∀ p ∈ cs', p.1 < 0 :=
      fun p hp => hcnegs p ((popMin_perm hc).mem_iff.1 (List.mem_cons_of_mem _ hp))
    have hdnegs' : ∀ p ∈ ds', p.1 < 0 :=
      fun p hp => hdnegs p ((popMin_perm hd).mem_iff.1 (List.mem_cons_of_mem _ hp))
    have hmem_cs : ∀ p ∈ cs, p = (cneg, cA) ∨ p ∈ cs' := fun p hp => by
      rcases List.mem_cons.1 ((popMin_perm hc).mem_iff.2 hp) with h | h
      · exact Or.inl h
      · exact Or.inr h
    have hmem_ds : ∀ p ∈ ds, p = (dneg, dA) ∨ p ∈ ds' := fun p hp => by
      rcases List.mem_cons.1 ((popMin_perm hd).mem_iff.2 hp) with h | h
      · exact Or.inl h
      · exact Or.inr h
    simp only [settleLoopX, hc, hd]
    set CS := if -cneg - min (-cneg) (-dneg) > tolerance
      then (-(-cneg - min (-cneg) (-dneg)), cA) :: cs' else cs' with hCS
    set DS := if -dneg - min (-cneg) (-dneg) > tolerance
      then (-(-dneg - min (-cneg) (-dneg)), dA) :: ds' else ds' with hDS
    have hcs'CS : ∀ p ∈ cs', p ∈ CS := by
      intro p hp
      rw [hCS]
      split
      · exact List.mem_cons_of_mem _ hp
      · exact hp
    have hds'DS : ∀ p ∈ ds', p ∈ DS := by
      intro p hp
      rw [hDS]
      split
      · exact List.mem_cons_of_mem _ hp
      · exact hp
    have hCSsub : ∀ p ∈ CS,
        (p = (-(-cneg - min (-cneg) (-dneg)), cA) ∧
          tolerance < -cneg - min (-cneg) (-dneg)) ∨ p ∈ cs' := by
      intro p hp
      rw [hCS] at hp
      split at hp
      next hcond =>
        rcases List.mem_cons.1 hp with h | h
        · exact Or.inl ⟨h, hcond⟩
        · exact Or.inr h
      next => exact Or.inr hp
    have hDSsub : ∀ p ∈ DS,
        (p = (-(-dneg - min (-cneg) (-dneg)), dA) ∧
          tolerance < -dneg - min (-cneg) (-dneg)) ∨ p ∈ ds' := by
      intro p hp
      rw [hDS] at hp
      split at hp
      next hcond =>
        rcases List.mem_cons.1 hp with h | h
        · exact Or.inl ⟨h, hcond⟩
        · exact Or.inr h
      next => exact Or.inr hp
    have hCSsnd : ∀ a ∈ CS.map Prod.snd, a = cA ∨ a ∈ cs'.map Prod.snd := by
      intro a ha
      rw [hCS] at ha
      split at ha
      · rw [List.map_cons] at ha
        exact List.mem_cons.1 ha
      · exact Or.inr ha
    have hDSsnd : ∀ a ∈ DS.map Prod.snd, a = dA ∨ a ∈ ds'.map Prod.snd := by
      intro a ha
      rw [hDS] at ha
      split at ha
      · rw [List.map_cons] at ha
        exact List.mem_cons.1 ha
      · exact Or.inr ha
    have hfC : CS.length + DS.length ≤ f := by
      rw [hCS, hDS]
      have h3 := step_sizes cneg dneg cA dA cs' ds'
      have hc' := popMin_length hc
      have hd' := popMin_length hd
      omega
    have hndC : (CS.map Prod.snd ++ DS.map Prod.snd).Nodup := by
      rw [hCS, hDS]
      refine List.Nodup.sublist (List.Sublist.append ?_ ?_) hN
      · split
        · exact List.Sublist.refl _
        · exact List.sublist_cons_self _ _
      · split
        · exact List.Sublist.refl _
        · exact List.sublist_cons_self _ _
    have hnegC : ∀ p ∈ CS, p.1 < 0 := by
      intro p hp
      rcases hCSsub p hp with ⟨rfl, hcond⟩ | hp'
      · exact neg_lt_zero.2 (lt_trans tolerance_pos hcond)
      · exact hcnegs' p hp'
    have hnegD : ∀ p ∈ DS, p.1 < 0 := by
      intro p hp
      rcases hDSsub p hp with ⟨rfl, hcond⟩ | hp'
      · exact neg_lt_zero.2 (lt_trans tolerance_pos hcond)
      · exact hdnegs' p hp'
    obtain ⟨ih1, ih2, ih3⟩ := IH CS DS hfC hndC hnegC hnegD
    have hexp : ∀ a, netAdj (⟨dA, cA, min (-cneg) (-dneg)⟩ :: settleLoopX f CS DS) a =
        ((if dA = a then min (-cneg) (-dneg) else 0) -
          (if cA = a then min (-cneg) (-dneg) else 0)) +
          netAdj (settleLoopX f CS DS) a :=
      fun a => netAdj_cons _ _ _
    have hnaC : ¬ tolerance < -cneg - min (-cneg) (-dneg) →
        netAdj (settleLoopX f CS DS) cA = 0 := by
      intro hpush
      apply settleLoopX_netAdj_zero
      · rw [hCS, if_neg hpush]
        exact hcA_cs'
      · intro hmem
        rcases hDSsnd _ hmem with h | h
        · exact hcAdA h
        · exact hcA_ds' h
    have hnaD : ¬ tolerance < -dneg - min (-cneg) (-dneg) →
        netAdj (settleLoopX f CS DS) dA = 0 := by
      intro hpush
      apply settleLoopX_netAdj_zero
      · intro hmem
        rcases hCSsnd _ hmem with h | h
        · exact hcAdA h.symm
        · exact hdA_cs' h
      · rw [hDS, if_neg hpush]
        exact hdA_ds'
    refine ⟨?_, ?_, ?_⟩
    · -- creditors never overshoot below zero
      intro p hp
      rw [hexp p.2]
      rcases hmem_cs p hp with rfl | hp'
      · rw [if_neg (Ne.symm hcAdA), if_pos rfl]
        by_cases hpush : tolerance < -cneg - min (-cneg) (-dneg)
        · have hin : (-(-cneg - min (-cneg) (-dneg)), cA) ∈ CS := by
            rw [hCS, if_pos hpush]
            exact List.mem_cons_self _ _
          have h5 := ih1 _ hin
          dsimp only at h5
          rw [neg_neg] at h5
          linarith
        · rw [hnaC hpush]
          have := min_le_left (-cneg) (-dneg)
          linarith
      · have hpa2 : p.2 ∈ cs'.map Prod.snd := List.mem_map_of_mem _ hp'
        have hne1 : ¬ cA = p.2 := fun h => hcA_cs' (h ▸ hpa2)
        have hne2 : ¬ dA = p.2 := fun h => hdA_cs' (h ▸ hpa2)
        rw [if_neg hne2, if_neg hne1]
        have := ih1 p (hcs'CS p hp')
        linarith
    · -- debtors never overshoot above zero
      intro p hp
      rw [hexp p.2]
      rcases hmem_ds p hp with rfl | hp'
      · rw [if_pos rfl, if_neg hcAdA]
        by_cases hpush : tolerance < -dneg - min (-cneg) (-dneg)
        · have hin : (-(-dneg - min (-cneg) (-dneg)), dA) ∈ DS := by
            rw [hDS, if_pos hpush]
            exact List.mem_cons_self _ _
          have h5 := ih2 _ hin
          dsimp only at h5
          linarith
        · rw [hnaD hpush]
          have := min_le_right (-cneg) (-dneg)
          linarith
      · have hpa2 : p.2 ∈ ds'.map Prod.snd := List.mem_map_of_mem _ hp'
        have hne1 : ¬ cA = p.2 := fun h => hcA_ds' (h ▸ hpa2)
        have hne2 : ¬ dA = p.2 := fun h => hdA_ds' (h ▸ hpa2)
        rw [if_neg hne2, if_neg hne1]
        have := ih2 p (hds'DS p hp')
        linarith
    · -- at least one side ends fully settled
      rcases ih3 with ihL | ihR
      · refine Or.inl ?_
        intro p hp
        rw [hexp p.2]
        rcases hmem_cs p hp with rfl | hp'
        · rw [if_neg (Ne.symm hcAdA), if_pos rfl]
          by_cases hpush : tolerance < -cneg - min (-cneg) (-dneg)
          · have hin : (-(-cneg - min (-cneg) (-dneg)), cA) ∈ CS := by
              rw [hCS, if_pos hpush]
              exact List.mem_cons_self _ _
            have h5 := ihL _ hin
            dsimp only at h5
            rw [neg_neg] at h5
            linarith
          · rw [hnaC hpush]
            push_neg at hpush
            linarith
        · have hpa2 : p.2 ∈ cs'.map Prod.snd := List.mem_map_of_mem _ hp'
          have hne1 : ¬ cA = p.2 := fun h => hcA_cs' (h ▸ hpa2)
          have hne2 : ¬ dA = p.2 := fun h => hdA_cs' (h ▸ hpa2)
          rw [if_neg hne2, if_neg hne1]
          have := ihL p (hcs'CS p hp')
          linarith
      · refine Or.inr ?_
        intro p hp
        rw [hexp p.2]
        rcases hmem_ds p hp with rfl | hp'
        · rw [if_pos rfl, if_neg hcAdA]
          by_cases hpush : tolerance < -dneg - min (-cneg) (-dneg)
          · have hin : (-(-dneg - min (-cneg) (-dneg)), dA) ∈ DS := by
              rw [hDS, if_pos hpush]
              exact List.mem_cons_self _ _
            have h5 := ihR _ hin
            dsimp only at h5
            linarith
          · rw [hnaD hpush]
            push_neg at hpush
            linarith
        · have hpa2 : p.2 ∈ ds'.map Prod.snd := List.mem_map_of_mem _ hp'
          have hne1 : ¬ cA = p.2 := fun h => hcA_ds' (h ▸ hpa2)
          have hne2 : ¬ dA = p.2 := fun h => hdA_ds' (h ▸ hpa2)
          rw [if_neg hne2, if_neg hne1]
          have := ihR p (hds'DS p hp')
          linarith

/-! ### Summation helpers -/

lemma sum_map_add {α : Type} (l : List α) (f g : α → ℚ) :
    (l.map fun a => f a + g a).sum = (l.map f).sum + (l.map g).sum := by
  induction l with
  | nil => simp
  | cons x xs ih => simp [ih]; ring

lemma sum_map_ite_zero {L : List String} {x : String} {c : ℚ} (hx : x ∉ L) :
    (L.map fun a => if x = a then c else 0).sum = 0 := by
  induction L with
  | nil => simp
  | cons y ys ih =>
    have hxy : x ≠ y := fun h => hx (h ▸ List.mem_cons_self _ _)
    have hxys : x ∉ ys := fun h => hx (List.mem_cons_of_mem _ h)
    simp [hxy, ih hxys]

lemma sum_map_ite {L : List String} (hL : L.Nodup) {x : String} {c : ℚ} (hx : x ∈ L) :
    (L.map fun a => if x = a then c else 0).sum = c := by
  induction L with
  | nil => simp at hx
  | cons y ys ih =>
    obtain ⟨hy, hys⟩ := List.nodup_cons.1 hL
    rcases List.mem_cons.1 hx with rfl | hx'
    · simp [sum_map_ite_zero hy]
    · have hxy : x ≠ y := fun h => hy (h ▸ hx')
      simp [hxy, ih hys hx']

/-- Settling moves money around: summed over a duplicate-free list of addresses
containing every endpoint, the net adjustments cancel. -/
lemma sum_netAdj {L : List String} (hL : L.Nodup) : ∀ {ts : List Transfer},
    (∀ t ∈ ts, t.from_address ∈ L ∧ t.to_address ∈ L) →
    (L.map fun a => netAdj ts a).sum = 0
  | [], _ => by simp [netAdj]
  | t :: ts, h => by
    obtain ⟨hf, ht⟩ := h t (List.mem_cons_self _ _)
    have htail := sum_netAdj hL (fun u hu => h u (List.mem_cons_of_mem _ hu))
    have hrw : (L.map fun a => netAdj (t :: ts) a) =
        L.map fun a => ((if t.from_address = a then t.amount else 0) -
          (if t.to_address = a then t.amount else 0)) + netAdj ts a := by
      exact List.map_congr_left fun a _ => netAdj_cons t ts a
    rw [hrw, sum_map_add, htail]
    have h1 : (L.map fun a => (if t.from_address = a then t.amount else 0) -
        (if t.to_address = a then t.amount else 0)).sum = 0 := by
      have := sum_map_add L (fun a => if t.from_address = a then t.amount else 0)
        (fun a => -(if t.to_address = a then t.amount else 0))
      rw [show (L.map fun a => (if t.from_address = a then t.amount else 0) -
          (if t.to_address = a then t.amount else 0)) =
          L.map fun a => (if t.from_address = a then t.amount else 0) +
          -(if t.to_address = a then t.amount else 0) from
          List.map_congr_left fun a _ => by ring, this]
      rw [sum_map_ite hL hf]
      rw [show (L.map fun a => -(if t.to_address = a then t.amount else 0)) =
          L.map fun a => (if t.to_address = a then -t.amount else 0) from
          List.map_congr_left fun a _ => by split <;> simp]
      rw [sum_map_ite hL ht]
      ring
    rw [h1]
    ring

lemma sum_map_le_length_mul {α : Type} {l : List α} {f : α → ℚ} {c : ℚ}
    (h : ∀ x ∈ l, f x ≤ c) : (l.map f).sum ≤ l.length * c := by
  induction l with
  | nil => simp
  | cons x xs ih =>
    simp only [List.map_cons, List.sum_cons, List.length_cons]
    have h1 := h x (List.mem_cons_self _ _)
    have h2 := ih fun y hy => h y (List.mem_cons_of_mem _ hy)
    push_cast
    nlinarith [h1, h2]

lemma sum_map_neg {α : Type} (l : List α) (f : α → ℚ) :
    (l.map fun a => -(f a)).sum = -(l.map f).sum := by
  induction l with
  | nil => simp
  | cons x xs ih =>
    simp only [List.map_cons, List.sum_cons, ih]
    ring

lemma neg_length_mul_le_sum_map {α : Type} {l : List α} {f : α → ℚ} {c : ℚ}
    (h : ∀ x ∈ l, -c ≤ f x) : -(l.length * c) ≤ (l.map f).sum := by
  have hle := sum_map_le_length_mul (f := fun a => -(f a)) (c := c) (l := l)
    fun x hx => by
      have := h x hx
      dsimp only
      linarith
  rw [sum_map_neg] at hle
  linarith

/-! ### Quantization error -/

lemma roundHalfEven_error (q : ℚ) : |(roundHalfEven q : ℚ) - q| ≤ 1 / 2 := by
  have h1 : (⌊q⌋ : ℚ) ≤ q := Int.floor_le q
  have h2 : q < ⌊q⌋ + 1 := Int.lt_floor_add_one q
  rw [roundHalfEven]
  split
  next h => rw [abs_le]; constructor <;> push_cast <;> linarith
  next h =>
    split
    next h' => rw [abs_le]; constructor <;> push_cast <;> linarith
    next h' =>
      have hf : q - ⌊q⌋ = 1 / 2 := le_antisymm (not_lt.1 h') (not_lt.1 h)
      split <;> (rw [abs_le]; constructor <;> push_cast <;> linarith)

lemma quantize_error (q : ℚ) : |quantize q - q| ≤ tolerance / 2 := by
  have h := roundHalfEven_error (q * 1000000)
  rw [quantize, tolerance]
  have heq : (roundHalfEven (q * 1000000) : ℚ) / 1000000 - q =
      ((roundHalfEven (q * 1000000) : ℚ) - q * 1000000) / 1000000 := by ring
  rw [heq, abs_div, show |(1000000 : ℚ)| = 1000000 by norm_num]
  linarith

lemma abs_add_sub_add (a b c d : ℚ) : |a + b - (c + d)| ≤ |a - c| + |b - d| := by
  have h : a + b - (c + d) = (a - c) + (b - d) := by ring
  rw [h]
  exact abs_add _ _

/-- Per-address error between settling the quantized transfers and the exact ones. -/
lemma netAdj_quant_error : ∀ (ts : List Transfer) (a : String),
    |netAdj (ts.map fun t => ⟨t.from_address, t.to_address, quantize t.amount⟩) a -
      netAdj ts a| ≤ ts.length * (tolerance / 2)
  | [], a => by simp [netAdj]
  | t :: ts, a => by
    rw [List.map_cons, netAdj_cons, netAdj_cons]
    have htail := netAdj_quant_error ts a
    have hq := quantize_error t.amount
    have hhead : |((if (⟨t.from_address, t.to_address, quantize t.amount⟩ :
        Transfer).from_address = a then quantize t.amount else 0) -
          (if (⟨t.from_address, t.to_address, quantize t.amount⟩ :
        Transfer).to_address = a then quantize t.amount else 0)) -
        ((if t.from_address = a then t.amount else 0) -
          (if t.to_address = a then t.amount else 0))| ≤ tolerance / 2 := by
      dsimp only
      by_cases h1 : t.from_address = a
      · by_cases h2 : t.to_address = a
        · simp only [if_pos h1, if_pos h2]
          rw [show (quantize t.amount - quantize t.amount) -
            (t.amount - t.amount) = 0 by ring, abs_zero]
          linarith [tolerance_pos]
        · simp only [if_pos h1, if_neg h2]
          rw [show (quantize t.amount - 0) - (t.amount - 0) =
            quantize t.amount - t.amount by ring]
          exact hq
      · by_cases h2 : t.to_address = a
        · simp only [if_neg h1, if_pos h2]
          rw [show (0 - quantize t.amount) - (0 - t.amount) =
            -(quantize t.amount - t.amount) by ring, abs_neg]
          exact hq
        · simp only [if_neg h1, if_neg h2]
          rw [show ((0:ℚ) - 0) - (0 - 0) = 0 by ring, abs_zero]
          linarith [tolerance_pos]
    refine le_trans (le_trans (abs_add_sub_add _ _ _ _) (add_le_add hhead htail))
      (le_of_eq ?_)
    rw [List.length_cons]
    push_cast
    ring

/-! ### The partition into creditors and debtors -/

lemma creditorsOf_cons (p : String × ℚ) (rest : List (String × ℚ)) :
    creditorsOf (p :: rest) =
      if p.2 > tolerance then (-p.2, p.1) :: creditorsOf rest else creditorsOf rest := by
  by_cases hc : p.2 > tolerance <;> simp [creditorsOf, List.filterMap_cons, hc]

lemma debtorsOf_cons (p : String × ℚ) (rest : List (String × ℚ)) :
    debtorsOf (p :: rest) =
      if p.2 < -tolerance then (p.2, p.1) :: debtorsOf rest else debtorsOf rest := by
  by_cases hd : p.2 < -tolerance <;> simp [debtorsOf, List.filterMap_cons, hd]

lemma mem_creditorsOf {b : List (String × ℚ)} {a : String} {v : ℚ} :
    (-v, a) ∈ creditorsOf b ↔ (a, v) ∈ b ∧ v > tolerance := by
  rw [creditorsOf, List.mem_filterMap]
  constructor
  · rintro ⟨⟨a', v'⟩, hp, hf⟩
    dsimp only at hf
    split at hf
    next hcond =>
      simp only [Option.some.injEq, Prod.mk.injEq] at hf
      obtain ⟨h1, rfl⟩ := hf
      have hv : v' = v := neg_injective h1
      subst hv
      exact ⟨hp, hcond⟩
    next => cases hf
  · rintro ⟨hp, hv⟩
    exact ⟨(a, v), hp, by simp [hv]⟩

lemma mem_debtorsOf {b : List (String × ℚ)} {a : String} {v : ℚ} :
    (v, a) ∈ debtorsOf b ↔ (a, v) ∈ b ∧ v < -tolerance := by
  rw [debtorsOf, List.mem_filterMap]
  constructor
  · rintro ⟨⟨a', v'⟩, hp, hf⟩
    dsimp only at hf
    split at hf
    next hcond =>
      simp only [Option.some.injEq, Prod.mk.injEq] at hf
      obtain ⟨rfl, rfl⟩ := hf
      exact ⟨hp, hcond⟩
    next => cases hf
  · rintro ⟨hp, hv⟩
    exact ⟨(a, v), hp, by simp [hv]⟩

lemma mem_creditors_snd {b : List (String × ℚ)} {a : String} :
    a ∈ (creditorsOf b).map Prod.snd → ∃ v, (a, v) ∈ b ∧ v > tolerance := by
  intro ha
  rw [List.mem_map] at ha
  obtain ⟨⟨x, a'⟩, hmem, rfl⟩ := ha
  rw [creditorsOf, List.mem_filterMap] at hmem
  obtain ⟨⟨a'', v⟩, hp, hf⟩ := hmem
  dsimp only at hf
  split at hf
  next hcond =>
    simp only [Option.some.injEq, Prod.mk.injEq] at hf
    obtain ⟨rfl, rfl⟩ := hf
    exact ⟨v, hp, hcond⟩
  next => cases hf

lemma mem_debtors_snd {b : List (String × ℚ)} {a : String} :
    a ∈ (debtorsOf b).map Prod.snd → ∃ v, (a, v) ∈ b ∧ v < -tolerance := by
  intro ha
  rw [List.mem_map] at ha
  obtain ⟨⟨x, a'⟩, hmem, rfl⟩ := ha
  rw [debtorsOf, List.mem_filterMap] at hmem
  obtain ⟨⟨a'', v⟩, hp, hf⟩ := hmem
  dsimp only at hf
  split at hf
  next hcond =>
    simp only [Option.some.injEq, Prod.mk.injEq] at hf
    obtain ⟨rfl, rfl⟩ := hf
    exact ⟨v, hp, hcond⟩
  next => cases hf

lemma creditorsOf_snd_sub {b : List (String × ℚ)} :
    ∀ x ∈ (creditorsOf b).map Prod.snd, x ∈ b.map Prod.fst := by
  intro x hx
  obtain ⟨v, hp, _⟩ := mem_creditors_snd hx
  exact List.mem_map.2 ⟨(x, v), hp, rfl⟩

lemma debtorsOf_snd_sub {b : List (String × ℚ)} :
    ∀ x ∈ (debtorsOf b).map Prod.snd, x ∈ b.map Prod.fst := by
  intro x hx
  obtain ⟨v, hp, _⟩ := mem_debtors_snd hx
  exact List.mem_map.2 ⟨(x, v), hp, rfl⟩

lemma creditorsOf_neg {b : List (String × ℚ)} : ∀ p ∈ creditorsOf b, p.1 < 0 := by
  intro p hp
  rw [creditorsOf, List.mem_filterMap] at hp
  obtain ⟨⟨a, v⟩, _, hf⟩ := hp
  dsimp only at hf
  split at hf
  next hcond =>
    simp only [Option.some.injEq] at hf
    rw [← hf]
    dsimp only
    exact neg_lt_zero.2 (lt_trans tolerance_pos hcond)
  next => cases hf

lemma debtorsOf_neg {b : List (String × ℚ)} : ∀ p ∈ debtorsOf b, p.1 < 0 := by
  intro p hp
  rw [debtorsOf, List.mem_filterMap] at hp
  obtain ⟨⟨a, v⟩, _, hf⟩ := hp
  dsimp only at hf
  split at hf
  next hcond =>
    simp only [Option.some.injEq] at hf
    rw [← hf]
    dsimp only
    have := tolerance_pos
    linarith
  next => cases hf

/-- In a mapping with duplicate-free keys, the value at a key is unique. -/
lemma eq_of_mem_nodup_keys : ∀ {b : List (String × ℚ)}, (b.map Prod.fst).Nodup →
    ∀ {a : String} {v v' : ℚ}, (a, v) ∈ b → (a, v') ∈ b → v = v'
  | [], _, _, _, _, h, _ => by simp at h
  | p :: rest, h, a, v, v', h1, h2 => by
    rw [List.map_cons] at h
    obtain ⟨hp1, hrest⟩ := List.nodup_cons.1 h
    rcases List.mem_cons.1 h1 with e1 | m1 <;> rcases List.mem_cons.1 h2 with e2 | m2
    · have := e1.trans e2.symm
      simp only [Prod.mk.injEq] at this
      exact this.2
    · subst e1
      exact absurd (List.mem_map_of_mem Prod.fst m2) hp1
    · subst e2
      exact absurd (List.mem_map_of_mem Prod.fst m1) hp1
    · exact eq_of_mem_nodup_keys hrest m1 m2

/-- Duplicate-free balance keys yield duplicate-free heap addresses across both heaps. -/
lemma heap_addrs_nodup : ∀ {b : List (String × ℚ)}, (b.map Prod.fst).Nodup →
    ((creditorsOf b).map Prod.snd ++ (debtorsOf b).map Prod.snd).Nodup
  | [], _ => by simp [creditorsOf, debtorsOf]
  | p :: rest, h => by
    rw [List.map_cons] at h
    obtain ⟨hp1, hrest⟩ := List.nodup_cons.1 h
    have ihr := heap_addrs_nodup hrest
    obtain ⟨hcn, hdn, hdisj⟩ := List.nodup_append.1 ihr
    rw [creditorsOf_cons, debtorsOf_cons]
    by_cases hc : p.2 > tolerance
    · have hd : ¬ (p.2 < -tolerance) := by
        have := tolerance_pos
        intro hlt
        linarith
      rw [if_pos hc, if_neg hd, List.map_cons, List.cons_append]
      refine List.nodup_cons.2 ⟨?_, ihr⟩
      intro hmem
      rcases List.mem_append.1 hmem with hm | hm
      · exact hp1 (creditorsOf_snd_sub _ hm)
      · exact hp1 (debtorsOf_snd_sub _ hm)
    · rw [if_neg hc]
      by_cases hd : p.2 < -tolerance
      · rw [if_pos hd, List.map_cons]
        refine List.nodup_append.2 ⟨hcn, List.nodup_cons.2 ⟨?_, hdn⟩, ?_⟩
        · intro hm
          exact hp1 (debtorsOf_snd_sub _ hm)
        · intro x hx hmem
          rcases List.mem_cons.1 hmem with rfl | hm
          · exact hp1 (creditorsOf_snd_sub _ hx)
          · exact hdisj hx hm
      · rw [if_neg hd]
        exact ihr

/-- Settlement closure up to filtering and rounding: on a duplicate-free balance
mapping whose values sum to zero, settling every returned transfer (adding each
amount to the payer's balance and subtracting it from the payee's) leaves every
participant within `(n + T) * tolerance` of zero, where `n` is the number of
balance entries and `T` the number of transfers. -/
lemma simplify_debts_settles (b : List (String × ℚ))
    (hkeys : (b.map Prod.fst).Nodup) (hsum : (b.map Prod.snd).sum = 0) :
    ∀ p ∈ b, |p.2 + netAdj (simplify_debts b) p.1| ≤
      (b.length + (simplify_debts b).length) * tolerance := by
  have hmap : simplify_debts b =
      (settleLoopX ((creditorsOf b).length + (debtorsOf b).length)
        (creditorsOf b) (debtorsOf b)).map
        fun t => ⟨t.from_address, t.to_address, quantize t.amount⟩ :=
    settleLoop_eq_map _ _ _
  obtain ⟨inv1, inv2, inv3⟩ :=
    settleLoopX_invariant ((creditorsOf b).length + (debtorsOf b).length)
      (creditorsOf b) (debtorsOf b) (le_refl _) (heap_addrs_nodup hkeys)
      creditorsOf_neg debtorsOf_neg
  have hend : ∀ t ∈ settleLoopX ((creditorsOf b).length + (debtorsOf b).length)
      (creditorsOf b) (debtorsOf b),
      t.from_address ∈ b.map Prod.fst ∧ t.to_address ∈ b.map Prod.fst := by
    intro t ht
    obtain ⟨h1, h2⟩ := settleLoopX_mem _ _ _ t ht
    exact ⟨debtorsOf_snd_sub _ h2, creditorsOf_snd_sub _ h1⟩
  have hFsmall : ∀ p ∈ b, ¬ tolerance < p.2 → ¬ p.2 < -tolerance →
      netAdj (settleLoopX ((creditorsOf b).length + (debtorsOf b).length)
        (creditorsOf b) (debtorsOf b)) p.1 = 0 := by
    intro p hp hc hd
    apply settleLoopX_netAdj_zero
    · intro hmem
      obtain ⟨v, hv, hvt⟩ := mem_creditors_snd hmem
      have heqv : v = p.2 := eq_of_mem_nodup_keys hkeys hv hp
      rw [heqv] at hvt
      exact hc hvt
    · intro hmem
      obtain ⟨v, hv, hvt⟩ := mem_debtors_snd hmem
      have heqv : v = p.2 := eq_of_mem_nodup_keys hkeys hv hp
      rw [heqv] at hvt
      exact hd hvt
  generalize hts : settleLoopX ((creditorsOf b).length + (debtorsOf b).length)
    (creditorsOf b) (debtorsOf b) = ts at inv1 inv2 inv3 hend hFsmall hmap
  have htolnn : (0:ℚ) ≤ tolerance := tolerance_pos.le
  have hsumF : (b.map fun p => p.2 + netAdj ts p.1).sum = 0 := by
    rw [sum_map_add b Prod.snd fun p => netAdj ts p.1, hsum, zero_add]
    have hmm : (b.map fun p => netAdj ts p.1) =
        (b.map Prod.fst).map fun a => netAdj ts a := by
      rw [List.map_map]
      rfl
    rw [hmm]
    exact sum_netAdj hkeys fun t ht => hend t ht
  have hFcred : ∀ p ∈ b, tolerance < p.2 → 0 ≤ p.2 + netAdj ts p.1 := by
    intro p hp hc
    have hin : (-p.2, p.1) ∈ creditorsOf b := mem_creditorsOf.2 ⟨hp, hc⟩
    have h := inv1 _ hin
    dsimp only at h
    rw [neg_neg] at h
    exact h
  have hFdebt : ∀ p ∈ b, p.2 < -tolerance → p.2 + netAdj ts p.1 ≤ 0 := by
    intro p hp hd
    have hin : (p.2, p.1) ∈ debtorsOf b := mem_debtorsOf.2 ⟨hp, hd⟩
    have h := inv2 _ hin
    dsimp only at h
    exact h
  have hlen1 : ∀ p ∈ b, (1:ℚ) ≤ (b.length : ℚ) := by
    intro p hp
    have h : 0 < b.length := List.length_pos.2 (List.ne_nil_of_mem hp)
    exact_mod_cast h
  have hFabs : ∀ p ∈ b, |p.2 + netAdj ts p.1| ≤ (b.length : ℚ) * tolerance := by
    rcases inv3 with invL | invR
    · have hub : ∀ p ∈ b, p.2 + netAdj ts p.1 ≤ tolerance := by
        intro p hp
        by_cases hc : tolerance < p.2
        · have hin : (-p.2, p.1) ∈ creditorsOf b := mem_creditorsOf.2 ⟨hp, hc⟩
          have h := invL _ hin
          dsimp only at h
          rw [neg_neg] at h
          exact h
        · by_cases hd : p.2 < -tolerance
          · exact le_trans (hFdebt p hp hd) htolnn
          · rw [hFsmall p hp hc hd]
            push_neg at hc
            linarith
      intro p hp
      obtain ⟨R, hperm⟩ : ∃ R, b.Perm (p :: R) := ⟨_, List.perm_cons_erase hp⟩
      have hsplit : (b.map fun q => q.2 + netAdj ts q.1).sum =
          (p.2 + netAdj ts p.1) + (R.map fun q => q.2 + netAdj ts q.1).sum := by
        rw [(hperm.map fun q => q.2 + netAdj ts q.1).sum_eq]
        simp only [List.map_cons, List.sum_cons]
      have herase : (R.map fun q => q.2 + netAdj ts q.1).sum ≤
          (R.length : ℚ) * tolerance :=
        sum_map_le_length_mul fun q hq =>
          hub q (hperm.mem_iff.2 (List.mem_cons_of_mem _ hq))
      have herlen : (R.length : ℚ) ≤ (b.length : ℚ) := by
        have hl := hperm.length_eq
        rw [List.length_cons] at hl
        have hle : R.length ≤ b.length := by omega
        exact_mod_cast hle
      have h1 : -((b.length : ℚ) * tolerance) ≤ p.2 + netAdj ts p.1 := by
        rw [hsumF] at hsplit
        nlinarith [herase, herlen, htolnn]
      have h2 : p.2 + netAdj ts p.1 ≤ (b.length : ℚ) * tolerance := by
        have hu := hub p hp
        have hl := hlen1 p hp
        nlinarith
      exact abs_le.2 ⟨h1, h2⟩
    · have hlb : ∀ p ∈ b, -tolerance ≤ p.2 + netAdj ts p.1 := by
        intro p hp
        by_cases hd : p.2 < -tolerance
        · have hin : (p.2, p.1) ∈ debtorsOf b := mem_debtorsOf.2 ⟨hp, hd⟩
          have h := invR _ hin
          dsimp only at h
          exact h
        · by_cases hc : tolerance < p.2
          · exact le_trans (by linarith : -tolerance ≤ (0:ℚ)) (hFcred p hp hc)
          · rw [hFsmall p hp hc hd]
            push_neg at hd
            linarith
      intro p hp
      obtain ⟨R, hperm⟩ : ∃ R, b.Perm (p :: R) := ⟨_, List.perm_cons_erase hp⟩
      have hsplit : (b.map fun q => q.2 + netAdj ts q.1).sum =
          (p.2 + netAdj ts p.1) + (R.map fun q => q.2 + netAdj ts q.1).sum := by
        rw [(hperm.map fun q => q.2 + netAdj ts q.1).sum_eq]
        simp only [List.map_cons, List.sum_cons]
      have herase : -((R.length : ℚ) * tolerance) ≤
          (R.map fun q => q.2 + netAdj ts q.1).sum :=
        neg_length_mul_le_sum_map fun q hq =>
          hlb q (hperm.mem_iff.2 (List.mem_cons_of_mem _ hq))
      have herlen : (R.length : ℚ) ≤ (b.length : ℚ) := by
        have hl := hperm.length_eq
        rw [List.length_cons] at hl
        have hle : R.length ≤ b.length := by omega
        exact_mod_cast hle
      have h2 : p.2 + netAdj ts p.1 ≤ (b.length : ℚ) * tolerance := by
        rw [hsumF] at hsplit
        nlinarith [herase, herlen, htolnn]
      have h1 : -((b.length : ℚ) * tolerance) ≤ p.2 + netAdj ts p.1 := by
        have hl := hlb p hp
        have ho := hlen1 p hp
        nlinarith
      exact abs_le.2 ⟨h1, h2⟩
  intro p hp
  have hT : (simplify_debts b).length = ts.length := by
    rw [hmap, List.length_map]
  have htri : |p.2 + netAdj (simplify_debts b) p.1| ≤
      |p.2 + netAdj ts p.1| + |netAdj (simplify_debts b) p.1 - netAdj ts p.1| := by
    have heq : p.2 + netAdj (simplify_debts b) p.1 =
        (p.2 + netAdj ts p.1) + (netAdj (simplify_debts b) p.1 - netAdj ts p.1) := by
      ring
    rw [heq]
    exact abs_add _ _
  have hq2 : |netAdj (simplify_debts b) p.1 - netAdj ts p.1| ≤
      (ts.length : ℚ) * (tolerance / 2) := by
    rw [hmap]
    exact netAdj_quant_error ts p.1
  have habs := hFabs p hp
  have hcast : (0:ℚ) ≤ (ts.length : ℚ) := by positivity
  rw [hT]
  nlinarith [htri, habs, hq2, htolnn, hcast, mul_nonneg hcast htolnn]

/-! ### Characterizing the balance aggregator -/

lemma lookupBal_dupdate (b : List (String × ℚ)) (a : String) (δ : ℚ) (x : String) :
    lookupBal (dupdate b a δ) x =
      if x = a then some ((lookupBal b x).getD 0 + δ) else lookupBal b x := by
  induction b with
  | nil =>
    by_cases hx : x = a
    · subst hx
      simp [dupdate, lookupBal]
    · simp [dupdate, lookupBal, hx, Ne.symm hx]
  | cons p rest ih =>
    by_cases hpa : p.1 = a
    · simp only [dupdate, if_pos hpa]
      by_cases hx : x = a
      · subst hx
        rw [lookupBal, if_pos hpa, lookupBal, if_pos hpa, if_pos rfl]
        simp
      · have hne : p.1 ≠ x := by
          rw [hpa]
          exact Ne.symm hx
        rw [lookupBal, if_neg hne, if_neg hx, lookupBal, if_neg hne]
    · simp only [dupdate, if_neg hpa]
      by_cases hpx : p.1 = x
      · have hxa : x ≠ a := fun h => hpa (hpx.trans h)
        rw [lookupBal, if_pos hpx, if_neg hxa, lookupBal, if_pos hpx]
      · rw [lookupBal, if_neg hpx, ih, lookupBal, if_neg hpx]

lemma lookupBal_fold_debits (g : String × ℚ → ℚ) (x : String) :
    ∀ (l : List (String × ℚ)) (b0 : List (String × ℚ)),
    lookupBal (l.foldl (fun acc p => dupdate acc p.1 (-(g p))) b0) x =
      if l.any fun p => p.1 == x then
        some ((lookupBal b0 x).getD 0 - ((l.filter fun p => p.1 == x).map g).sum)
      else lookupBal b0 x
  | [], b0 => by simp
  | p :: rest, b0 => by
    rw [List.foldl_cons, lookupBal_fold_debits g x rest]
    by_cases hpx : p.1 = x
    · have hbeq : (p.1 == x) = true := by simp [hpx]
      have hany : ((p :: rest).any fun q => q.1 == x) = true := by
        simp [hbeq]
      have hfil : ((p :: rest).filter fun q => q.1 == x) =
          p :: rest.filter fun q => q.1 == x := by
        simp [List.filter_cons, hbeq]
      rw [hany, if_pos rfl, hfil]
      by_cases hrest : (rest.any fun q => q.1 == x) = true
      · rw [if_pos hrest, lookupBal_dupdate, if_pos hpx.symm]
        simp only [List.map_cons, List.sum_cons, Option.getD_some]
        exact congrArg some (by ring)
      · rw [if_neg hrest, lookupBal_dupdate, if_pos hpx.symm]
        have hfil2 : (rest.filter fun q => q.1 == x) = [] := by
          rw [List.filter_eq_nil_iff]
          intro q hq hbq
          exact hrest (List.any_eq_true.2 ⟨q, hq, hbq⟩)
        rw [hfil2]
        simp only [List.map_cons, List.map_nil, List.sum_cons, List.sum_nil,
          Option.getD_some]
        exact congrArg some (by ring)
    · have hbeq : (p.1 == x) = false := by simp [hpx]
      have hany : ((p :: rest).any fun q => q.1 == x) = rest.any fun q => q.1 == x := by
        simp [hbeq]
      have hfil : ((p :: rest).filter fun q => q.1 == x) =
          rest.filter fun q => q.1 == x := by
        simp [List.filter_cons, hbeq]
      have hnot : ¬ x = p.1 := fun h => hpx h.symm
      rw [hany, hfil, lookupBal_dupdate, if_neg hnot]

/-- Lookup after one credit to the payer followed by a round of debits. -/
lemma lookupBal_branch (b : List (String × ℚ)) (cr : String) (amount : ℚ)
    (l : List (String × ℚ)) (g : String × ℚ → ℚ) (x : String) :
    lookupBal (l.foldl (fun acc p => dupdate acc p.1 (-(g p))) (dupdate b cr amount)) x =
      if (x == cr || l.any fun p => p.1 == x) then
        some ((lookupBal b x).getD 0 + ((if x = cr then amount else 0) -
          ((l.filter fun p => p.1 == x).map g).sum))
      else lookupBal b x := by
  rw [lookupBal_fold_debits g x l, lookupBal_dupdate]
  by_cases hx : x = cr
  · have hbeq : (x == cr) = true := by simp [hx]
    have hor : ((x == cr) || l.any fun p => p.1 == x) = true := by
      simp [hbeq]
    rw [if_pos hx, hor, if_pos rfl, if_pos hx]
    by_cases hany : (l.any fun p => p.1 == x) = true
    · rw [if_pos hany]
      simp only [Option.getD_some]
      exact congrArg some (by ring)
    · rw [if_neg hany]
      have hfil : (l.filter fun p => p.1 == x) = [] := by
        rw [List.filter_eq_nil_iff]
        intro q hq hbq
        exact hany (List.any_eq_true.2 ⟨q, hq, hbq⟩)
      rw [hfil]
      simp only [List.map_nil, List.sum_nil]
      exact congrArg some (by ring)
  · have hbeq : (x == cr) = false := by simp [hx]
    have hor : ((x == cr) || l.any fun p => p.1 == x) = l.any fun p => p.1 == x := by
      simp [hbeq]
    rw [if_neg hx, hor, if_neg hx]
    by_cases hany : (l.any fun p => p.1 == x) = true
    · rw [if_pos hany, if_pos hany]
      exact congrArg some (by ring)
    · rw [if_neg hany, if_neg hany]

/-- Pointwise characterization of one aggregation step. -/
lemma lookupBal_applyExpense (b : List (String × ℚ)) (e : Expense) (x : String) :
    lookupBal (applyExpense b e) x =
      if touches e x then some ((lookupBal b x).getD 0 + contrib e x)
      else lookupBal b x := by
  by_cases hp : e.participants_json = []
  · have ht : touches e x = false := by simp [touches, hp]
    simp only [applyExpense, if_pos hp, ht, Bool.false_eq_true, if_false]
  · have hpd : (decide (e.participants_json ≠ [])) = true := by simp [hp]
    by_cases h1 : e.split_type = "equal"
    · have hknown : splitKnown e = true := by simp [splitKnown, h1]
      have htouch : touches e x =
          ((x == e.creator_address) || e.participants_json.any fun p => p.1 == x) := by
        simp [touches, hpd, hknown]
      have hcount : ¬ (e.participants_json.length = 0) := by
        simpa [List.length_eq_zero] using hp
      have hcontrib : contrib e x = (if x = e.creator_address then e.amount else 0) -
          ((e.participants_json.filter fun p => p.1 == x).map
            fun _ => e.amount / (e.participants_json.length : ℚ)).sum := by
        rw [contrib, if_neg hp, if_pos hknown]
        refine congrArg (fun s => (if x = e.creator_address then e.amount else 0) - s) ?_
        refine congrArg List.sum (List.map_congr_left ?_)
        intro p _
        simp [debitEntry, h1]
      simp only [applyExpense, if_neg hp, if_pos h1, if_neg hcount]
      rw [lookupBal_branch b e.creator_address e.amount e.participants_json
        (fun _ => e.amount / (e.participants_json.length : ℚ)) x, htouch, hcontrib]
    · by_cases h2 : e.split_type = "exact"
      · have hknown : splitKnown e = true := by simp [splitKnown, h2]
        have htouch : touches e x =
            ((x == e.creator_address) || e.participants_json.any fun p => p.1 == x) := by
          simp [touches, hpd, hknown]
        have hcontrib : contrib e x = (if x = e.creator_address then e.amount else 0) -
            ((e.participants_json.filter fun p => p.1 == x).map fun p => p.2).sum := by
          rw [contrib, if_neg hp, if_pos hknown]
          refine congrArg (fun s => (if x = e.creator_address then e.amount else 0) - s) ?_
          refine congrArg List.sum (List.map_congr_left ?_)
          intro p _
          simp [debitEntry, h1, h2]
        simp only [applyExpense, if_neg hp, if_neg h1, if_pos h2]
        rw [lookupBal_branch b e.creator_address e.amount e.participants_json
          (fun p => p.2) x, htouch, hcontrib]
      · by_cases h3 : e.split_type = "percentage"
        · have hknown : splitKnown e = true := by simp [splitKnown, h3]
          have htouch : touches e x =
              ((x == e.creator_address) || e.participants_json.any fun p => p.1 == x) := by
            simp [touches, hpd, hknown]
          have hcontrib : contrib e x = (if x = e.creator_address then e.amount else 0) -
              ((e.participants_json.filter fun p => p.1 == x).map
                fun p => e.amount * p.2 / 100).sum := by
            rw [contrib, if_neg hp, if_pos hknown]
            refine congrArg (fun s => (if x = e.creator_address then e.amount else 0) - s) ?_
            refine congrArg List.sum (List.map_congr_left ?_)
            intro p _
            simp [debitEntry, h1, h2, h3]
          simp only [applyExpense, if_neg hp, if_neg h1, if_neg h2, if_pos h3]
          rw [lookupBal_branch b e.creator_address e.amount e.participants_json
            (fun p => e.amount * p.2 / 100) x, htouch, hcontrib]
        · have hknown : splitKnown e = false := by simp [splitKnown, h1, h2, h3]
          have ht : touches e x = false := by simp [touches, hknown]
          simp only [applyExpense, if_neg hp, if_neg h1, if_neg h2, if_neg h3, ht,
            Bool.false_eq_true, if_false]

/-- An expense that does not write an address contributes nothing to it. -/
lemma contrib_eq_zero_of_not_touches {e : Expense} {x : String}
    (h : touches e x = false) : contrib e x = 0 := by
  rw [contrib]
  split
  · rfl
  next hne =>
    split
    next hknown =>
      have hpd : (decide (e.participants_json ≠ [])) = true := by simp [hne]
      have hor : ((x == e.creator_address) ||
          e.participants_json.any fun p => p.1 == x) = false := by
        cases horc : ((x == e.creator_address) ||
            e.participants_json.any fun p => p.1 == x)
        · rfl
        · have : touches e x = true := by simp [touches, hpd, hknown, horc]
          rw [this] at h
          cases h
      obtain ⟨hxc, hany⟩ := Bool.or_eq_false_iff.1 hor
      have hxcr : ¬ x = e.creator_address := by simpa using hxc
      have hfil : (e.participants_json.filter fun p => p.1 == x) = [] := by
        rw [List.filter_eq_nil_iff]
        intro q hq hbq
        have : (e.participants_json.any fun p => p.1 == x) = true :=
          List.any_eq_true.2 ⟨q, hq, hbq⟩
        rw [this] at hany
        cases hany
      rw [if_neg hxcr, hfil]
      simp
    next => rfl

/-- Pointwise characterization of the whole aggregation. -/
lemma lookupBal_foldl (x : String) : ∀ (es : List Expense) (b0 : List (String × ℚ)),
    lookupBal (es.foldl applyExpense b0) x =
      if es.any fun e => touches e x then
        some ((lookupBal b0 x).getD 0 + (es.map fun e => contrib e x).sum)
      else lookupBal b0 x
  | [], b0 => by simp
  | e :: rest, b0 => by
    rw [List.foldl_cons, lookupBal_foldl x rest, List.any_cons, List.map_cons,
      List.sum_cons, lookupBal_applyExpense]
    by_cases h1 : touches e x = true
    · have hor : (touches e x || rest.any fun u => touches u x) = true := by
        simp [h1]
      rw [hor, if_pos rfl, if_pos h1]
      by_cases h2 : (rest.any fun u => touches u x) = true
      · rw [if_pos h2]
        simp only [Option.getD_some]
        exact congrArg some (by ring)
      · rw [if_neg h2]
        have hall : (rest.map fun u => contrib u x).sum = 0 := by
          refine List.sum_eq_zero ?_
          intro q hq
          rw [List.mem_map] at hq
          obtain ⟨u, hu, rfl⟩ := hq
          refine contrib_eq_zero_of_not_touches ?_
          cases htt : touches u x
          · rfl
          · exact absurd (List.any_eq_true.2 ⟨u, hu, htt⟩) h2
        rw [hall]
        exact congrArg some (by ring)
    · have h1f : touches e x = false := by
        cases htt : touches e x
        · rfl
        · exact absurd htt h1
      have hor : (touches e x || rest.any fun u => touches u x) =
          rest.any fun u => touches u x := by
        simp [h1f]
      have hc0 : contrib e x = 0 := contrib_eq_zero_of_not_touches h1f
      rw [hor, if_neg h1, hc0]
      by_cases h2 : (rest.any fun u => touches u x) = true
      · rw [if_pos h2, if_pos h2]
        exact congrArg some (by ring)
      · rw [if_neg h2, if_neg h2]

/-- `dict` lookup characterization of `compute_net_balances`: an address is present
iff some expense writes it, and its value is the sum of the per-expense
contributions. -/
lemma lookupBal_compute_net_balances (es : List Expense) (x : String) :
    lookupBal (compute_net_balances es) x =
      if es.any fun e => touches e x then some ((es.map fun e => contrib e x).sum)
      else none := by
  rw [compute_net_balances, lookupBal_foldl]
  split
  · rw [lookupBal]
    simp
  · rw [lookupBal]

/-! ### Error behavior of the aggregator on raw input -/

lemma foldlM_parse_isOk
    (step : List (String × ℚ) → String × RawVal → ℚ → List (String × ℚ)) :
    ∀ (l : List (String × RawVal)) (acc : List (String × ℚ)),
    ((l.foldlM (fun b (p : String × RawVal) => do
      let v ← parseDecimal p.2
      return step b p v) acc).isOk = true) ↔ ∀ p ∈ l, p.2 ≠ RawVal.malformed
  | [], acc => by
    constructor
    · intro _ p hp
      cases hp
    · intro _
      rfl
  | ⟨a, v⟩ :: rest, acc => by
    rcases v with q | _
    · have hred : (((a, RawVal.num q) :: rest).foldlM
          (fun b (p : String × RawVal) => do
            let v ← parseDecimal p.2
            return step b p v) acc) = rest.foldlM
          (fun b (p : String × RawVal) => do
            let v ← parseDecimal p.2
            return step b p v) (step acc (a, RawVal.num q) q) := rfl
      rw [hred, foldlM_parse_isOk step rest (step acc (a, RawVal.num q) q)]
      constructor
      · intro h u hu
        rcases List.mem_cons.1 hu with rfl | hu'
        · intro hcon
          cases hcon
        · exact h u hu'
      · intro h u hu
        exact h u (List.mem_cons_of_mem _ hu)
    · have hred : (((a, RawVal.malformed) :: rest).foldlM
          (fun b (p : String × RawVal) => do
            let v ← parseDecimal p.2
            return step b p v) acc) =
          (Except.error () : Except Unit (List (String × ℚ))) := rfl
      rw [hred]
      constructor
      · intro h
        cases h
      · intro h
        exact absurd rfl (h (a, RawVal.malformed) (List.mem_cons_self _ _))

lemma applyExpenseRaw_isOk (b : List (String × ℚ)) (e : ExpenseRaw) :
    ((applyExpenseRaw b e).isOk = true) ↔ rawOk e := by
  rcases ha : e.amount with q | _
  · have hstep : applyExpenseRaw b e = (if e.participants_json = [] then pure b
      else if e.split_type = "equal" then
        (if e.participants_json.length = 0 then pure b
         else pure (e.participants_json.foldl
          (fun acc p => dupdate acc p.1 (-(q / (e.participants_json.length : ℚ))))
          (dupdate b e.creator_address q)))
      else if e.split_type = "exact" then
        e.participants_json.foldlM (fun acc (p : String × RawVal) => do
          let owed ← parseDecimal p.2
          return dupdate acc p.1 (-owed)) (dupdate b e.creator_address q)
      else if e.split_type = "percentage" then
        e.participants_json.foldlM (fun acc (p : String × RawVal) => do
          let pct ← parseDecimal p.2
          return dupdate acc p.1 (-(q * pct / 100))) (dupdate b e.creator_address q)
      else pure b) := by
      rw [applyExpenseRaw, ha]
      rfl
    rw [hstep]
    have hq : e.amount ≠ RawVal.malformed := by
      rw [ha]
      intro h
      cases h
    by_cases hp : e.participants_json = []
    · rw [if_pos hp]
      constructor
      · intro _
        exact ⟨hq, fun hne _ _ _ => absurd hp hne⟩
      · intro _
        rfl
    · rw [if_neg hp]
      by_cases h1 : e.split_type = "equal"
      · rw [if_pos h1]
        have hne : "equal" ≠ "exact" := by decide
        have hne2 : "equal" ≠ "percentage" := by decide
        split <;>
          exact ⟨fun _ => ⟨hq, fun _ hor _ _ => by
              rcases hor with h | h
              · exact absurd (h1.symm.trans h) hne
              · exact absurd (h1.symm.trans h) hne2⟩,
            fun _ => rfl⟩
      · rw [if_neg h1]
        by_cases h2 : e.split_type = "exact"
        · rw [if_pos h2, foldlM_parse_isOk]
          constructor
          · intro h
            exact ⟨hq, fun _ _ => h⟩
          · intro h
            exact h.2 hp (Or.inl h2)
        · rw [if_neg h2]
          by_cases h3 : e.split_type = "percentage"
          · rw [if_pos h3, foldlM_parse_isOk]
            constructor
            · intro h
              exact ⟨hq, fun _ _ => h⟩
            · intro h
              exact h.2 hp (Or.inr h3)
          · rw [if_neg h3]
            constructor
            · intro _
              refine ⟨hq, fun _ hor _ _ => ?_⟩
              rcases hor with h | h
              · exact absurd h h2
              · exact absurd h h3
            · intro _
              rfl
  · have hstep : applyExpenseRaw b e = Except.error () := by
      rw [applyExpenseRaw, ha]
      rfl
    rw [hstep]
    constructor
    · intro h
      cases h
    · intro h
      exact absurd ha h.1

lemma foldlM_applyExpenseRaw_isOk : ∀ (es : List ExpenseRaw)
    (acc : List (String × ℚ)),
    ((es.foldlM applyExpenseRaw acc).isOk = true) ↔ ∀ e ∈ es, rawOk e
  | [], acc => by
    constructor
    · intro _ e he
      cases he
    · intro _
      rfl
  | e :: rest, acc => by
    rw [List.foldlM_cons]
    rcases happly : applyExpenseRaw acc e with u | b'
    · have hstep : ((Except.error u : Except Unit (List (String × ℚ))) >>=
          fun b' => rest.foldlM applyExpenseRaw b') = Except.error u := rfl
      rw [hstep]
      constructor
      · intro h
        cases h
      · intro h
        have hok := (applyExpenseRaw_isOk acc e).2 (h e (List.mem_cons_self _ _))
        rw [happly] at hok
        cases hok
    · have hstep : ((Except.ok b' : Except Unit (List (String × ℚ))) >>=
          fun b'' => rest.foldlM applyExpenseRaw b'') =
          rest.foldlM applyExpenseRaw b' := rfl
      rw [hstep, foldlM_applyExpenseRaw_isOk rest b']
      have hok : rawOk e := by
        rw [← applyExpenseRaw_isOk acc e, happly]
        rfl
      constructor
      · intro h u hu
        rcases List.mem_cons.1 hu with rfl | hu'
        · exact hok
        · exact h u hu'
      · intro h u hu
        exact h u (List.mem_cons_of_mem _ hu)

lemma compute_net_balances_raw_isOk (es : List ExpenseRaw) :
    ((compute_net_balances_raw es).isOk = true) ↔ ∀ e ∈ es, rawOk e :=
  foldlM_applyExpenseRaw_isOk es []

/-- With duplicate-free keys, filtering a mapping to one present key is a singleton. -/
lemma filter_key_singleton : ∀ {l : List (String × ℚ)}, (l.map Prod.fst).Nodup →
    ∀ {a : String} {w : ℚ}, (a, w) ∈ l → (l.filter fun p => p.1 == a) = [(a, w)]
  | [], _, _, _, h => by cases h
  | p :: rest, hnd, a, w, hw => by
    rw [List.map_cons] at hnd
    obtain ⟨hp1, hrest⟩ := List.nodup_cons.1 hnd
    rcases List.mem_cons.1 hw with he | hm
    · subst he
      rw [List.filter_cons]
      have hbeq : (((a, w) : String × ℚ).1 == a) = true := by simp
      rw [hbeq, if_pos rfl]
      have hfil : (rest.filter fun p => p.1 == a) = [] := by
        rw [List.filter_eq_nil_iff]
        intro q hq hbq
        have hqa : q.1 = a := by simpa using hbq
        have ha : a ∈ rest.map Prod.fst := by
          rw [← hqa]
          exact List.mem_map_of_mem Prod.fst hq
        exact hp1 ha
      rw [hfil]
    · have ha_rest : a ∈ rest.map Prod.fst := List.mem_map_of_mem Prod.fst hm
      have hpa : (p.1 == a) = false := by
        simp only [beq_eq_false_iff_ne, ne_eq]
        intro h
        exact hp1 (h ▸ ha_rest)
      rw [List.filter_cons, hpa, if_neg (by simp)]
      exact filter_key_singleton hrest hm

/-- Each balance entry lands in at most one heap. -/
lemma heap_sizes_le : ∀ b : List (String × ℚ),
    (creditorsOf b).length + (debtorsOf b).length ≤ b.length
  | [] => by simp [creditorsOf, debtorsOf]
  | p :: rest => by
    rw [creditorsOf_cons, debtorsOf_cons, List.length_cons]
    have ih := heap_sizes_le rest
    by_cases hc : p.2 > tolerance
    · have hd : ¬ (p.2 < -tolerance) := by
        have := tolerance_pos
        intro h
        linarith
      rw [if_pos hc, if_neg hd, List.length_cons]
      omega
    · rw [if_neg hc]
      by_cases hd : p.2 < -tolerance
      · rw [if_pos hd, List.length_cons]
        omega
      · rw [if_neg hd]
        omega

/-! ## Claim theorems -/

/-- C1, counterexample: on balances `{a: 10, b: 10, c: -9, d: -11}` there are two
creditors and two debtors, yet `simplify_debts` emits three transfers, so the
claimed bound `transfer count ≤ max(#creditors, #debtors)` fails. -/
theorem C1_cex :
    (creditorsOf [("a", 10), ("b", 10), ("c", -9), ("d", -11)]).length = 2 ∧
    (debtorsOf [("a", 10), ("b", 10), ("c", -9), ("d", -11)]).length = 2 ∧
    (simplify_debts [("a", 10), ("b", 10), ("c", -9), ("d", -11)]).length = 3 ∧
    ¬ ((simplify_debts [("a", 10), ("b", 10), ("c", -9), ("d", -11)]).length ≤
      max (creditorsOf [("a", 10), ("b", 10), ("c", -9), ("d", -11)]).length
        (debtorsOf [("a", 10), ("b", 10), ("c", -9), ("d", -11)]).length) := by
  decide

/-- C1, amended: for every balance mapping, the number of transfers returned by
`simplify_debts` is at most `#creditors + #debtors - 1` (the greedy bound the
source loop actually guarantees), not `max(#creditors, #debtors)`. -/
theorem C1_transfer_count_bound (b : List (String × ℚ)) :
    (simplify_debts b).length ≤
      (creditorsOf b).length + (debtorsOf b).length - 1 :=
  settleLoop_length _ _ _

/-- C2, counterexample: the balances `{a: 1e-6, b: 1e-6, e: -2e-6}` sum to exactly
zero, yet both positive entries are at the tolerance and are filtered out, no
transfer is returned, and `e` finishes at distance `2e-6 > 1e-6` from zero — the
claimed closure within `1e-6` fails (under any reading of "applying" a transfer,
since no transfers exist). -/
theorem C2_cex :
    (([("a", 1/1000000), ("b", 1/1000000), ("e", -(2/1000000))] :
        List (String × ℚ)).map Prod.fst).Nodup ∧
    (([("a", 1/1000000), ("b", 1/1000000), ("e", -(2/1000000))] :
        List (String × ℚ)).map Prod.snd).sum = 0 ∧
    simplify_debts [("a", 1/1000000), ("b", 1/1000000), ("e", -(2/1000000))] = [] ∧
    ¬ (∀ p ∈ ([("a", 1/1000000), ("b", 1/1000000), ("e", -(2/1000000))] :
        List (String × ℚ)),
      |p.2 + netAdj (simplify_debts
        [("a", 1/1000000), ("b", 1/1000000), ("e", -(2/1000000))]) p.1| ≤
        tolerance) := by
  decide

/-- C2, amended: for a balance mapping with duplicate-free keys whose values sum to
exactly zero, settling every returned transfer (adding the amount to the payer's
balance and subtracting it from the payee's — the spec's directions are reversed)
leaves every participant within `(n + T) * tolerance` of zero, where `n` is the
number of balance entries and `T` is the number of returned transfers, rather than
within the claimed `1e-6`. -/
theorem C2_settlement_closure (b : List (String × ℚ))
    (hkeys : (b.map Prod.fst).Nodup) (hsum : (b.map Prod.snd).sum = 0) :
    ∀ p ∈ b, |p.2 + netAdj (simplify_debts b) p.1| ≤
      (b.length + (simplify_debts b).length) * tolerance :=
  simplify_debts_settles b hkeys hsum

/-- C2, witness: the amended theorem applied to the concrete mapping
`{x: 4, y: -4}` at participant `x`. -/
theorem C2_settlement_closure_witness :
    |(4 : ℚ) + netAdj (simplify_debts [("x", 4), ("y", -4)]) "x"| ≤
      (((([("x", 4), ("y", -4)] : List (String × ℚ)).length : ℚ)) +
        ((simplify_debts [("x", 4), ("y", -4)]).length : ℚ)) * tolerance :=
  C2_settlement_closure [("x", 4), ("y", -4)] (by decide) (by decide)
    ("x", 4) (by decide)

/-- C3, counterexample: a balance of exactly `1e-6` has absolute value at least the
tolerance but is discarded (the code keeps only balances strictly above it), so it
does not participate in the reduction. -/
theorem C3_cex :
    tolerance ≤ (1/1000000 : ℚ) ∧
    creditorsOf [("a", 1/1000000)] = [] ∧
    debtorsOf [("b", -(1/1000000))] = [] ∧
    simplify_debts [("a", 1/1000000), ("b", -(1/1000000))] = [] := by
  decide

/-- C3, amended: `simplify_debts` discards every balance whose absolute value is at
most (not: below) the tolerance `1e-6`, and an entry enters the creditor heap (as
`(-balance, addr)`) iff its balance is strictly above the tolerance, the debtor heap
(as `(balance, addr)`) iff strictly below its negation. -/
theorem C3_partition (b : List (String × ℚ)) (a : String) (v : ℚ) :
    ((-v, a) ∈ creditorsOf b ↔ (a, v) ∈ b ∧ v > tolerance) ∧
    ((v, a) ∈ debtorsOf b ↔ (a, v) ∈ b ∧ v < -tolerance) :=
  ⟨mem_creditorsOf, mem_debtorsOf⟩

/-- C4: `compute_net_balances` is invariant under permutation of the input expense
list — the resulting balance mappings are equal as dictionaries (same lookups,
hence same keys and values), which is Python `dict` equality. -/
theorem C4_permutation_invariant (es₁ es₂ : List Expense) (hperm : es₁.Perm es₂) :
    ∀ a, lookupBal (compute_net_balances es₁) a =
      lookupBal (compute_net_balances es₂) a := by
  intro a
  rw [lookupBal_compute_net_balances, lookupBal_compute_net_balances]
  have hany : (es₁.any fun e => touches e a) = es₂.any fun e => touches e a := by
    refine Bool.eq_iff_iff.2 ?_
    rw [List.any_eq_true, List.any_eq_true]
    constructor
    · rintro ⟨e, he, ht⟩
      exact ⟨e, hperm.mem_iff.1 he, ht⟩
    · rintro ⟨e, he, ht⟩
      exact ⟨e, hperm.mem_iff.2 he, ht⟩
  have hsum : (es₁.map fun e => contrib e a).sum = (es₂.map fun e => contrib e a).sum :=
    (hperm.map fun e => contrib e a).sum_eq
  rw [hany, hsum]

/-- C4, witness: two concrete expenses aggregated in both orders give the same
balance for address `A`. -/
theorem C4_permutation_invariant_witness :
    lookupBal (compute_net_balances
      [⟨"A", 100, "equal", [("A", 50), ("B", 50)]⟩,
       ⟨"B", 30, "exact", [("A", 30)]⟩]) "A" =
    lookupBal (compute_net_balances
      [⟨"B", 30, "exact", [("A", 30)]⟩,
       ⟨"A", 100, "equal", [("A", 50), ("B", 50)]⟩]) "A" :=
  C4_permutation_invariant
    [⟨"A", 100, "equal", [("A", 50), ("B", 50)]⟩, ⟨"B", 30, "exact", [("A", 30)]⟩]
    [⟨"B", 30, "exact", [("A", 30)]⟩, ⟨"A", 100, "equal", [("A", 50), ("B", 50)]⟩]
    (by decide) "A"

/-- C5, counterexample: for the single EXACT expense of amount 100 by payer `a`
with shares `{a: 10, b: 10}`, the payer's resulting net balance is
`100 - 10 = 90`, while the sum of everyone else's shares is `10`; the claim that
the payer's balance equals the sum of everyone else's shares is false whenever the
shares do not sum to the amount. -/
theorem C5_cex :
    lookupBal (compute_net_balances [⟨"a", 100, "exact", [("a", 10), ("b", 10)]⟩])
      "a" = some 90 ∧
    ((([("a", 10), ("b", 10)] : List (String × ℚ)).filter
      fun p => !(p.1 == "a")).map Prod.snd).sum = 10 ∧
    (90 : ℚ) ≠ 10 := by
  decide

/-- C5, amended: for a single expense with a recognised split type, duplicate-free
participant keys, and the payer among the participants with entry value `w`, the
payer is credited the full amount and debited exactly their own policy share, so
the payer's net balance is `amount - share(payer)`; this equals the sum of
everyone else's shares exactly when all shares sum to the amount (always the case
for EQUAL splits).  The claim's concrete EQUAL example behaves as stated:
amount 100 by `A` split equally over `{A, B}` yields balances `{A: 50, B: -50}`
and the single transfer `B` pays `A` 50. -/
theorem C5_payer_net_balance (e : Expense) (w : ℚ) (hknown : splitKnown e = true)
    (hnodup : (e.participants_json.map Prod.fst).Nodup)
    (hw : (e.creator_address, w) ∈ e.participants_json) :
    (lookupBal (compute_net_balances [e]) e.creator_address =
      some (e.amount - debitEntry e (e.creator_address, w))) ∧
    ((e.participants_json.map (debitEntry e)).sum = e.amount →
      e.amount - debitEntry e (e.creator_address, w) =
        ((e.participants_json.filter fun p => !(p.1 == e.creator_address)).map
          (debitEntry e)).sum) ∧
    (compute_net_balances [⟨"A", 100, "equal", [("A", 50), ("B", 50)]⟩] =
        [("A", 50), ("B", -50)] ∧
      simplify_debts [("A", 50), ("B", -50)] = [⟨"B", "A", 50⟩]) := by
  have hne : e.participants_json ≠ [] := by
    intro h
    rw [h] at hw
    cases hw
  have hfil := filter_key_singleton hnodup hw
  have hc : contrib e e.creator_address =
      e.amount - debitEntry e (e.creator_address, w) := by
    rw [contrib, if_neg hne, if_pos hknown, if_pos rfl, hfil]
    simp
  refine ⟨?_, ?_, by decide⟩
  · rw [lookupBal_compute_net_balances]
    have hany : ([e].any fun u => touches u e.creator_address) = true := by
      have ht : touches e e.creator_address = true := by
        simp [touches, hne, hknown]
      simp [ht]
    rw [if_pos hany]
    rw [List.map_cons, List.map_nil, List.sum_cons, List.sum_nil, hc]
    exact congrArg some (by ring)
  · intro hsum
    have hperm := List.filter_append_perm (fun p => p.1 == e.creator_address)
      e.participants_json
    have hsplit := (hperm.map (debitEntry e)).sum_eq
    rw [List.map_append, List.sum_append, hfil] at hsplit
    rw [hsum] at hsplit
    simp only [List.map_cons, List.map_nil, List.sum_cons, List.sum_nil] at hsplit
    linarith

/-- C5, witness: the amended theorem applied to the claim's own EQUAL example. -/
theorem C5_payer_net_balance_witness :
    lookupBal (compute_net_balances [⟨"A", 100, "equal", [("A", 50), ("B", 50)]⟩])
      "A" = some ((100 : ℚ) -
        debitEntry ⟨"A", 100, "equal", [("A", 50), ("B", 50)]⟩ ("A", 50)) :=
  (C5_payer_net_balance ⟨"A", 100, "equal", [("A", 50), ("B", 50)]⟩ 50
    (by decide) (by decide) (by decide)).1

/-- C6: the greedy loop terminates — its result is already stable at fuel
`#creditors + #debtors`, each iteration fully zeroing at least one popped side —
and it emits at most `#creditors + #debtors - 1` transfers, hence never more than
`participants - 1`. -/
theorem C6_termination_bound (b : List (String × ℚ)) :
    (∀ fuel, (creditorsOf b).length + (debtorsOf b).length ≤ fuel →
      settleLoop fuel (creditorsOf b) (debtorsOf b) = simplify_debts b) ∧
    (simplify_debts b).length ≤
      (creditorsOf b).length + (debtorsOf b).length - 1 ∧
    (simplify_debts b).length ≤ b.length - 1 := by
  refine ⟨?_, settleLoop_length _ _ _, ?_⟩
  · intro fuel hfuel
    exact settleLoop_fuel fuel _ _ _ hfuel (le_refl _)
  · have h1 := settleLoop_length ((creditorsOf b).length + (debtorsOf b).length)
      (creditorsOf b) (debtorsOf b)
    have h2 := heap_sizes_le b
    have h3 : (simplify_debts b).length ≤
        (creditorsOf b).length + (debtorsOf b).length - 1 := h1
    omega

/-- C6, witness: the bounds instantiated on a concrete four-entry mapping, with
extra fuel 5 giving the same transfers. -/
theorem C6_termination_bound_witness :
    (settleLoop 5 (creditorsOf [("a", 10), ("b", 10), ("c", -9), ("d", -11)])
        (debtorsOf [("a", 10), ("b", 10), ("c", -9), ("d", -11)]) =
      simplify_debts [("a", 10), ("b", 10), ("c", -9), ("d", -11)]) ∧
    (simplify_debts [("a", 10), ("b", 10), ("c", -9), ("d", -11)]).length ≤
      (creditorsOf [("a", 10), ("b", 10), ("c", -9), ("d", -11)]).length +
        (debtorsOf [("a", 10), ("b", 10), ("c", -9), ("d", -11)]).length - 1 ∧
    (simplify_debts [("a", 10), ("b", 10), ("c", -9), ("d", -11)]).length ≤
      ([("a", 10), ("b", 10), ("c", -9), ("d", -11)] :
        List (String × ℚ)).length - 1 :=
  ⟨(C6_termination_bound [("a", 10), ("b", 10), ("c", -9), ("d", -11)]).1 5
      (by decide),
    (C6_termination_bound [("a", 10), ("b", 10), ("c", -9), ("d", -11)]).2.1,
    (C6_termination_bound [("a", 10), ("b", 10), ("c", -9), ("d", -11)]).2.2⟩

/-- C7: on a balance mapping with duplicate-free keys, no returned transfer pays an
address to itself — creditor and debtor heap addresses stay disjoint throughout. -/
theorem C7_no_self_transfer (b : List (String × ℚ))
    (hkeys : (b.map Prod.fst).Nodup) :
    ∀ t ∈ simplify_debts b, t.from_address ≠ t.to_address := by
  intro t ht
  have hmap : simplify_debts b =
      (settleLoopX ((creditorsOf b).length + (debtorsOf b).length)
        (creditorsOf b) (debtorsOf b)).map
        fun u => ⟨u.from_address, u.to_address, quantize u.amount⟩ :=
    settleLoop_eq_map _ _ _
  rw [hmap, List.mem_map] at ht
  obtain ⟨u, hu, rfl⟩ := ht
  obtain ⟨hto, hfrom⟩ := settleLoopX_mem _ _ _ u hu
  obtain ⟨_, _, hdisj⟩ := List.nodup_append.1 (heap_addrs_nodup hkeys)
  intro he
  dsimp only at he
  exact hdisj (he ▸ hto) hfrom

/-- C7, witness: on the mapping `{a: 10, b: -10}` the single returned transfer
`b → a` has distinct endpoints. -/
theorem C7_no_self_transfer_witness : ("b" : String) ≠ "a" :=
  C7_no_self_transfer [("a", 10), ("b", -10)] (by decide)
    ⟨"b", "a", 10⟩ (by decide)

/-- C8, counterexample: an EQUAL-split expense with a malformed share value
aggregates successfully (the values of an equal split are never coerced to
decimals), so the aggregator does not fail "exactly when an input amount or share
cannot be interpreted as a decimal". -/
theorem C8_cex :
    ("b", RawVal.malformed) ∈
      (⟨"a", RawVal.num 10, "equal", [("b", RawVal.malformed)]⟩ :
        ExpenseRaw).participants_json ∧
    compute_net_balances_raw
      [⟨"a", RawVal.num 10, "equal", [("b", RawVal.malformed)]⟩] =
      Except.ok [("a", 10), ("b", -10)] := by
  constructor
  · decide
  · rfl

/-- C8, amended: `compute_net_balances` fails (with the decimal-coercion error the
spec calls `ComputationError`, aborting the whole call with no partial result)
exactly when some expense has a malformed amount, or has non-empty participants
under an EXACT or PERCENTAGE split with a malformed share value; EXACT shares that
do not sum to the amount never raise. -/
theorem C8_error_conditions (es : List ExpenseRaw) :
    ((compute_net_balances_raw es).isOk = true) ↔ ∀ e ∈ es, rawOk e :=
  compute_net_balances_raw_isOk es

/-- C9: an expense whose `split_type` is none of `'equal'`, `'exact'`,
`'percentage'` leaves the balances entirely unchanged — in particular the payer is
not credited — and removing it from any expense list does not change the result of
`compute_net_balances`. -/
theorem C9_unknown_split_noop (e : Expense) (h1 : e.split_type ≠ "equal")
    (h2 : e.split_type ≠ "exact") (h3 : e.split_type ≠ "percentage") :
    (∀ b, applyExpense b e = b) ∧
    ∀ es₁ es₂, compute_net_balances (es₁ ++ e :: es₂) =
      compute_net_balances (es₁ ++ es₂) := by
  have hnoop : ∀ b, applyExpense b e = b := by
    intro b
    rw [applyExpense]
    by_cases hp : e.participants_json = []
    · rw [if_pos hp]
    · rw [if_neg hp, if_neg h1, if_neg h2, if_neg h3]
  refine ⟨hnoop, ?_⟩
  intro es₁ es₂
  rw [compute_net_balances, compute_net_balances, List.foldl_append,
    List.foldl_append, List.foldl_cons, hnoop]

/-- C9, witness: a concrete `'weird'`-split expense is a no-op on a concrete
balance list and inside a concrete expense list. -/
theorem C9_unknown_split_noop_witness :
    (applyExpense [("z", 1)] ⟨"a", 50, "weird", [("b", 50)]⟩ = [("z", 1)]) ∧
    compute_net_balances
        ([⟨"A", 100, "equal", [("A", 50), ("B", 50)]⟩] ++
          (⟨"a", 50, "weird", [("b", 50)]⟩ : Expense) :: []) =
      compute_net_balances ([⟨"A", 100, "equal", [("A", 50), ("B", 50)]⟩] ++ []) :=
  ⟨(C9_unknown_split_noop ⟨"a", 50, "weird", [("b", 50)]⟩ (by decide) (by decide)
      (by decide)).1 [("z", 1)],
    (C9_unknown_split_noop ⟨"a", 50, "weird", [("b", 50)]⟩ (by decide) (by decide)
      (by decide)).2 [⟨"A", 100, "equal", [("A", 50), ("B", 50)]⟩] []⟩

/-- C10: `simplify_debts` is deterministic up to the heap contents — balance
mappings equal as dictionaries (permutations with the same entries) give the same
transfer list in the same order — and the pop order breaks priority ties
lexicographically: when a popped heap entry shares its first (negated-balance)
component with another entry, the popped address is the lexicographically smaller
string, because the heaps order `(Decimal, str)` tuples. -/
theorem C10_deterministic_tiebreak :
    (∀ b₁ b₂ : List (String × ℚ), b₁.Perm b₂ →
      simplify_debts b₁ = simplify_debts b₂) ∧
    (∀ (l : List (ℚ × String)) (q : ℚ) (a₁ a₂ : String) (rest : List (ℚ × String)),
      popMin l = some ((q, a₁), rest) → (q, a₂) ∈ l → a₂ ≠ a₁ →
      strLtb a₁ a₂ = true) := by
  constructor
  · intro b₁ b₂ hperm
    have hc : (creditorsOf b₁).Perm (creditorsOf b₂) := hperm.filterMap _
    have hd : (debtorsOf b₁).Perm (debtorsOf b₂) := hperm.filterMap _
    have hlen : (creditorsOf b₁).length + (debtorsOf b₁).length =
        (creditorsOf b₂).length + (debtorsOf b₂).length := by
      rw [hc.length_eq, hd.length_eq]
    show settleLoop ((creditorsOf b₁).length + (debtorsOf b₁).length)
        (creditorsOf b₁) (debtorsOf b₁) =
      settleLoop ((creditorsOf b₂).length + (debtorsOf b₂).length)
        (creditorsOf b₂) (debtorsOf b₂)
    rw [← hlen]
    exact settleLoop_perm _ _ _ _ _ hc hd
  · intro l q a₁ a₂ rest hpop hmem hne
    have hmin := popMin_min hpop (q, a₂) hmem
    have hq : (decide (q < q)) = false := by simp
    have hqe : (decide (q = q)) = true := by simp
    rw [keyLt, hq, hqe] at hmin
    simp only [Bool.false_or, Bool.true_and] at hmin
    cases hlt : strLtb a₁ a₂
    · exact absurd (strLtb_antisymm hlt hmin) hne.symm
    · rfl

/-- C10, witness: reversing a two-entry mapping does not change the transfers, and
on a tied creditor heap the lexicographically smaller address is popped first. -/
theorem C10_deterministic_tiebreak_witness :
    (simplify_debts [("a", 5), ("b", -5)] = simplify_debts [("b", -5), ("a", 5)]) ∧
    strLtb "a" "b" = true :=
  ⟨C10_deterministic_tiebreak.1 [("a", 5), ("b", -5)] [("b", -5), ("a", 5)]
      (by decide),
    C10_deterministic_tiebreak.2 [(-50, "b"), (-50, "a")] (-50) "a" "b"
      [(-50, "b")] (by decide) (by decide) (by decide)⟩

end DebtSimplifier
